import Mathlib

/-!
# Verification of the quantum simulation / fault-tolerance core

Shallow embedding of the repository's quantum-circuit simulation kernel
(`services/quantum-algebra/src/quantum_operations.py`) and stabilizer-based
error-correction layer (`services/quantum-fault-tolerance/src/error_correction.py`),
together with proofs and refutations of the specification's claims.

Conventions:
* Python `numpy` complex arrays become functions `ℕ → ℂ` (amplitude vectors) or
  `ℕ → ℕ → ℂ` (matrices), with the dimension passed separately; all statements
  quantify over indices below the dimension, mirroring the in-bounds accesses
  of the source.
* The source indexes qubit `q` of an `N`-qubit register at bit position
  `N - 1 - q` (most-significant-qubit-first), via `1 << (N-1-qubit)`; the
  embedding keeps exactly that convention.
* Floating-point arithmetic is embedded as exact real/complex arithmetic.
  `np.sqrt` of a negative real yields NaN in the source; every NaN then fails
  the `norm > 0` comparison and takes the fallback branch, which is modelled
  explicitly where it can occur (see `steaneDecode`/`shorDecode`).
-/

namespace QuantumVerify

/-! ## Steane-7 syndrome table (`SteaneCodeCorrector._build_syndrome_table`) -/

/-- X-type stabilizer generators of `SteaneCodeCorrector` (`self.x_stabilizers`),
rows over 7 qubits. -/
def xStabilizers : List (List ℕ) :=
  [[1, 1, 1, 1, 0, 0, 0],
   [1, 1, 0, 0, 1, 1, 0],
   [1, 0, 1, 0, 1, 0, 1]]

/-- Z-type stabilizer generators of `SteaneCodeCorrector` (`self.z_stabilizers`);
the source lists the same rows as for X. -/
def zStabilizers : List (List ℕ) :=
  [[1, 1, 1, 1, 0, 0, 0],
   [1, 1, 0, 0, 1, 1, 0],
   [1, 0, 1, 0, 1, 0, 1]]

/-- `sum(stab[j] for j in range(7) if j == i) % 2` — the entry of one stabilizer
row at qubit `i`, reduced mod 2. -/
def stabEntry (stab : List ℕ) (i : ℕ) : ℕ :=
  ((List.range 7).foldl (fun acc j => if j = i then acc + stab.getD j 0 else acc) 0) % 2

/-- The syndrome tuple of a single-qubit error at qubit `i` against a list of
stabilizer rows, as built by `_build_syndrome_table`. -/
def syndromeOf (stabs : List (List ℕ)) (i : ℕ) : List ℕ :=
  stabs.map (fun stab => stabEntry stab i)

/-- Error-pattern tags stored in the syndrome table: `('X', i)`, `('Z', i)`,
`('I', -1)`. -/
inductive ErrTag where
  | X : ℤ → ErrTag
  | Z : ℤ → ErrTag
  | I : ℤ → ErrTag
deriving DecidableEq, Repr

/-- The sequence of `self.syndrome_table[...] = ...` assignments performed by
`_build_syndrome_table`, in program order: first the seven X-error entries,
then the seven Z-error entries, then the no-error entry. -/
def syndromeTableInserts : List (List ℕ × ErrTag) :=
  ((List.range 7).map (fun i => (syndromeOf xStabilizers i, ErrTag.X i)))
    ++ ((List.range 7).map (fun i => (syndromeOf zStabilizers i, ErrTag.Z i)))
    ++ [([0, 0, 0], ErrTag.I (-1))]

/-- Python-dict semantics of the insert sequence: the value of a key is the one
written last. -/
def dictLookup (inserts : List (List ℕ × ErrTag)) (key : List ℕ) : Option ErrTag :=
  (inserts.reverse.find? (fun p => p.1 = key)).map Prod.snd

/-- `self.syndrome_table[key]` after construction. -/
def syndromeTable (key : List ℕ) : Option ErrTag :=
  dictLookup syndromeTableInserts key

/-! ## Complex matrices and amplitude vectors

`numpy` arrays are embedded as total functions on `ℕ`; every statement
quantifies only over indices below the array's length, matching the in-bounds
accesses of the source. -/

/-- A complex matrix, indexed like a 2-D `numpy` array. -/
abbrev Mat := ℕ → ℕ → ℂ

/-- `np.eye(N)` (equal entries for all in-bounds indices). -/
def eye (_N : ℕ) : Mat := fun i j => if i = j then 1 else 0

/-- `np.kron(A, B)` where `B` is a `bdim × bdim` matrix:
`kron(A,B)[i,j] = A[i / bdim, j / bdim] * B[i % bdim, j % bdim]`. -/
def kron (A : Mat) (bdim : ℕ) (B : Mat) : Mat :=
  fun i j => A (i / bdim) (j / bdim) * B (i % bdim) (j % bdim)

/-- Matrix–vector product `A @ v` for an `N × N` matrix. -/
noncomputable def mulVec (A : Mat) (N : ℕ) (v : ℕ → ℂ) : ℕ → ℂ :=
  fun i => ∑ j ∈ Finset.range N, A i j * v j

/-- `np.vdot(v, w)` on length-`N` vectors (first argument conjugated). -/
noncomputable def dotc (v w : ℕ → ℂ) (N : ℕ) : ℂ :=
  ∑ i ∈ Finset.range N, starRingEnd ℂ (v i) * w i

/-- `state.conj().T @ M @ state`. -/
noncomputable def quadForm (M : Mat) (N : ℕ) (s : ℕ → ℂ) : ℂ :=
  dotc s (mulVec M N s) N

/-- Squared Euclidean norm of a length-`N` amplitude vector. -/
noncomputable def normSqVec (v : ℕ → ℂ) (N : ℕ) : ℝ :=
  ∑ i ∈ Finset.range N, Complex.normSq (v i)

/-- `np.linalg.norm` of a length-`N` amplitude vector. -/
noncomputable def vecNorm (v : ℕ → ℂ) (N : ℕ) : ℝ :=
  Real.sqrt (normSqVec v N)

/-- `A` is unitary as an `N × N` matrix: `Aᴴ A = I` entrywise on in-bounds
indices. -/
def unitaryOn (A : Mat) (N : ℕ) : Prop :=
  ∀ i < N, ∀ j < N,
    (∑ l ∈ Finset.range N, starRingEnd ℂ (A l i) * A l j) = if i = j then 1 else 0

theorem eye_unitaryOn (M N : ℕ) : unitaryOn (eye M) N := by
  intro i hi j hj
  have h : ∀ l, starRingEnd ℂ (eye M l i) * eye M l j
      = if l = i then (if i = j then 1 else 0) else 0 := by
    intro l
    by_cases hli : l = i <;> by_cases hlj : l = j <;>
      simp_all [eye]
  simp only [h]
  rw [Finset.sum_ite_eq' (Finset.range N) i fun _ => if i = j then (1 : ℂ) else 0]
  simp [Finset.mem_range.mpr hi]

theorem dotc_mulVec_self (A : Mat) (N : ℕ) (v : ℕ → ℂ) (hA : unitaryOn A N) :
    dotc (mulVec A N v) (mulVec A N v) N = dotc v v N := by
  unfold dotc mulVec
  have step1 :
      (∑ i ∈ Finset.range N,
        starRingEnd ℂ (∑ j ∈ Finset.range N, A i j * v j) *
          (∑ k ∈ Finset.range N, A i k * v k))
      = ∑ j ∈ Finset.range N, ∑ k ∈ Finset.range N,
          (starRingEnd ℂ (v j) * v k) *
            ∑ i ∈ Finset.range N, starRingEnd ℂ (A i j) * A i k := by
    have expand : ∀ i,
        starRingEnd ℂ (∑ j ∈ Finset.range N, A i j * v j) *
          (∑ k ∈ Finset.range N, A i k * v k)
        = ∑ j ∈ Finset.range N, ∑ k ∈ Finset.range N,
            (starRingEnd ℂ (v j) * v k) * (starRingEnd ℂ (A i j) * A i k) := by
      intro i
      rw [map_sum, Finset.sum_mul_sum]
      refine Finset.sum_congr rfl fun j _ => Finset.sum_congr rfl fun k _ => ?_
      rw [map_mul]
      ring
    calc
      (∑ i ∈ Finset.range N,
          starRingEnd ℂ (∑ j ∈ Finset.range N, A i j * v j) *
            (∑ k ∈ Finset.range N, A i k * v k))
        = ∑ i ∈ Finset.range N, ∑ j ∈ Finset.range N, ∑ k ∈ Finset.range N,
            (starRingEnd ℂ (v j) * v k) * (starRingEnd ℂ (A i j) * A i k) :=
          Finset.sum_congr rfl fun i _ => expand i
      _ = ∑ j ∈ Finset.range N, ∑ i ∈ Finset.range N, ∑ k ∈ Finset.range N,
            (starRingEnd ℂ (v j) * v k) * (starRingEnd ℂ (A i j) * A i k) :=
          Finset.sum_comm
      _ = ∑ j ∈ Finset.range N, ∑ k ∈ Finset.range N, ∑ i ∈ Finset.range N,
            (starRingEnd ℂ (v j) * v k) * (starRingEnd ℂ (A i j) * A i k) :=
          Finset.sum_congr rfl fun j _ => Finset.sum_comm
      _ = ∑ j ∈ Finset.range N, ∑ k ∈ Finset.range N,
            (starRingEnd ℂ (v j) * v k) *
              ∑ i ∈ Finset.range N, starRingEnd ℂ (A i j) * A i k := by
          refine Finset.sum_congr rfl fun j _ => Finset.sum_congr rfl fun k _ => ?_
          rw [Finset.mul_sum]
  rw [step1]
  have collapse : ∀ j ∈ Finset.range N,
      (∑ k ∈ Finset.range N,
        (starRingEnd ℂ (v j) * v k) *
          ∑ i ∈ Finset.range N, starRingEnd ℂ (A i j) * A i k)
      = starRingEnd ℂ (v j) * v j := by
    intro j hj
    have hj' := Finset.mem_range.mp hj
    have : ∀ k ∈ Finset.range N,
        (starRingEnd ℂ (v j) * v k) *
          (∑ i ∈ Finset.range N, starRingEnd ℂ (A i j) * A i k)
        = if k = j then starRingEnd ℂ (v j) * v j else 0 := by
      intro k hk
      have hk' := Finset.mem_range.mp hk
      rw [hA j hj' k hk']
      by_cases hkj : k = j
      · subst hkj; simp
      · have : ¬ (j = k) := fun h => hkj h.symm
        simp [this, hkj]
    rw [Finset.sum_congr rfl this]
    simp [Finset.sum_ite_eq' (Finset.range N) j, Finset.mem_range.mpr hj']
  rw [Finset.sum_congr rfl collapse]

theorem dotc_self_re (v : ℕ → ℂ) (N : ℕ) : (dotc v v N).re = normSqVec v N := by
  unfold dotc normSqVec
  rw [Complex.re_sum]
  refine Finset.sum_congr rfl fun i _ => ?_
  rw [mul_comm, Complex.mul_conj]
  simp

/-- A unitary matrix preserves the squared Euclidean norm. -/
theorem unitary_normSqVec (A : Mat) (N : ℕ) (v : ℕ → ℂ) (hA : unitaryOn A N) :
    normSqVec (mulVec A N v) N = normSqVec v N := by
  rw [← dotc_self_re, ← dotc_self_re, dotc_mulVec_self A N v hA]

/-- A unitary matrix preserves the Euclidean norm. -/
theorem unitary_vecNorm (A : Mat) (N : ℕ) (v : ℕ → ℂ) (hA : unitaryOn A N) :
    vecNorm (mulVec A N v) N = vecNorm v N := by
  unfold vecNorm
  rw [unitary_normSqVec A N v hA]

/-! ## Kronecker products (`tensor_product_gates`) -/

theorem sum_range_mul_eq {M : Type*} [AddCommMonoid M] (m n : ℕ) (f : ℕ → M) :
    ∑ i ∈ Finset.range (m * n), f i
      = ∑ a ∈ Finset.range m, ∑ b ∈ Finset.range n, f (a * n + b) := by
  rcases Nat.eq_zero_or_pos n with hn | hn
  · subst hn; simp
  rw [← Finset.sum_product']
  refine Finset.sum_bij' (fun i _ => ((i / n : ℕ), (i % n : ℕ)))
    (fun p _ => p.1 * n + p.2) ?_ ?_ ?_ ?_ ?_
  · intro a ha
    have ha' := Finset.mem_range.mp ha
    refine Finset.mem_product.mpr ⟨Finset.mem_range.mpr ?_, Finset.mem_range.mpr ?_⟩
    · exact (Nat.div_lt_iff_lt_mul hn).mpr ha'
    · exact Nat.mod_lt _ hn
  · intro p hp
    have hp' := Finset.mem_product.mp hp
    have h1 := Finset.mem_range.mp hp'.1
    have h2 := Finset.mem_range.mp hp'.2
    refine Finset.mem_range.mpr ?_
    calc p.1 * n + p.2 < p.1 * n + n := by omega
    _ = (p.1 + 1) * n := by ring
    _ ≤ m * n := Nat.mul_le_mul_right n h1
  · intro a _
    exact Nat.div_add_mod' a n
  · intro p hp
    have hp' := Finset.mem_product.mp hp
    have h2 := Finset.mem_range.mp hp'.2
    have hdiv : (p.1 * n + p.2) / n = p.1 := by
      rw [add_comm, Nat.add_mul_div_right _ _ hn, Nat.div_eq_of_lt h2, Nat.zero_add]
    have hmod : (p.1 * n + p.2) % n = p.2 := by
      rw [add_comm, Nat.add_mul_mod_self_right, Nat.mod_eq_of_lt h2]
    ext <;> simp [hdiv, hmod]
  · intro a _
    rw [Nat.div_add_mod']

theorem kron_unitaryOn (A B : Mat) (aN bN : ℕ) (hbN : 0 < bN)
    (hA : unitaryOn A aN) (hB : unitaryOn B bN) :
    unitaryOn (kron A bN B) (aN * bN) := by
  intro i hi j hj
  have hidiv : i / bN < aN := (Nat.div_lt_iff_lt_mul hbN).mpr hi
  have hjdiv : j / bN < aN := (Nat.div_lt_iff_lt_mul hbN).mpr hj
  have himod : i % bN < bN := Nat.mod_lt _ hbN
  have hjmod : j % bN < bN := Nat.mod_lt _ hbN
  calc
    (∑ l ∈ Finset.range (aN * bN),
        starRingEnd ℂ (kron A bN B l i) * kron A bN B l j)
      = ∑ a ∈ Finset.range aN, ∑ b ∈ Finset.range bN,
          (starRingEnd ℂ (A a (i / bN)) * A a (j / bN)) *
            (starRingEnd ℂ (B b (i % bN)) * B b (j % bN)) := by
        rw [sum_range_mul_eq]
        refine Finset.sum_congr rfl fun a _ => Finset.sum_congr rfl fun b hb => ?_
        have hb' := Finset.mem_range.mp hb
        have hdiv : (a * bN + b) / bN = a := by
          rw [add_comm, Nat.add_mul_div_right _ _ hbN, Nat.div_eq_of_lt hb', Nat.zero_add]
        have hmod : (a * bN + b) % bN = b := by
          rw [add_comm, Nat.add_mul_mod_self_right, Nat.mod_eq_of_lt hb']
        simp only [kron, hdiv, hmod, map_mul]
        ring
    _ = (∑ a ∈ Finset.range aN, starRingEnd ℂ (A a (i / bN)) * A a (j / bN)) *
          (∑ b ∈ Finset.range bN, starRingEnd ℂ (B b (i % bN)) * B b (j % bN)) := by
        rw [Finset.sum_mul_sum]
    _ = (if i / bN = j / bN then 1 else 0) * (if i % bN = j % bN then 1 else 0) := by
        rw [hA _ hidiv _ hjdiv, hB _ himod _ hjmod]
    _ = if i = j then 1 else 0 := by
        by_cases h : i = j
        · subst h; simp
        · have hne : ¬ (i / bN = j / bN ∧ i % bN = j % bN) := by
            rintro ⟨h1, h2⟩
            apply h
            calc i = i / bN * bN + i % bN := (Nat.div_add_mod' i bN).symm
            _ = j / bN * bN + j % bN := by rw [h1, h2]
            _ = j := Nat.div_add_mod' j bN
          by_cases h1 : i / bN = j / bN
          · have h2 : ¬ (i % bN = j % bN) := fun h2 => hne ⟨h1, h2⟩
            simp [h1, h2, h]
          · simp [h1, h]

/-- One step of the fold in `tensor_product_gates`:
`result = kron(result, gate)`, tracking dimensions. -/
def tpStep (acc p : Mat × ℕ) : Mat × ℕ :=
  (kron acc.1 p.2 p.1, acc.2 * p.2)

/-- `QuantumLinearAlgebra.tensor_product_gates`: the empty list yields
`np.eye(1)`; otherwise fold `np.kron` over the tail starting from the head.
Each matrix is paired with its dimension (known to `numpy` from the array
shape). -/
def tensorProductGates (gs : List (Mat × ℕ)) : Mat × ℕ :=
  match gs with
  | [] => (eye 1, 1)
  | g :: rest => rest.foldl tpStep g

theorem foldl_tpStep_unitary (gs : List (Mat × ℕ)) :
    ∀ acc : Mat × ℕ, unitaryOn acc.1 acc.2 → 0 < acc.2 →
    (∀ p ∈ gs, unitaryOn p.1 p.2 ∧ 0 < p.2) →
    unitaryOn (gs.foldl tpStep acc).1 (gs.foldl tpStep acc).2 ∧
      0 < (gs.foldl tpStep acc).2 ∧
      (gs.foldl tpStep acc).2 = acc.2 * (gs.map Prod.snd).prod := by
  induction gs with
  | nil =>
    intro acc h1 h2 _
    exact ⟨h1, h2, by simp⟩
  | cons p rest ih =>
    intro acc h1 h2 h3
    have hp := h3 p (List.mem_cons_self p rest)
    have hrest : ∀ q ∈ rest, unitaryOn q.1 q.2 ∧ 0 < q.2 :=
      fun q hq => h3 q (List.mem_cons_of_mem p hq)
    have hstep1 : unitaryOn (tpStep acc p).1 (tpStep acc p).2 :=
      kron_unitaryOn acc.1 p.1 acc.2 p.2 hp.2 h1 hp.1
    have hstep2 : 0 < (tpStep acc p).2 := Nat.mul_pos h2 hp.2
    have := ih (tpStep acc p) hstep1 hstep2 hrest
    refine ⟨this.1, this.2.1, ?_⟩
    rw [List.foldl_cons, this.2.2]
    simp [tpStep, mul_assoc]

theorem tensorProductGates_unitary (gs : List (Mat × ℕ))
    (h : ∀ p ∈ gs, unitaryOn p.1 p.2 ∧ 0 < p.2) :
    unitaryOn (tensorProductGates gs).1 (tensorProductGates gs).2 ∧
      0 < (tensorProductGates gs).2 ∧
      (tensorProductGates gs).2 = (gs.map Prod.snd).prod := by
  match gs with
  | [] =>
    exact ⟨eye_unitaryOn 1 1, Nat.one_pos, by simp [tensorProductGates]⟩
  | g :: rest =>
    have hg := h g (List.mem_cons_self g rest)
    have hrest : ∀ q ∈ rest, unitaryOn q.1 q.2 ∧ 0 < q.2 :=
      fun q hq => h q (List.mem_cons_of_mem g hq)
    have := foldl_tpStep_unitary rest g hg.1 hg.2 hrest
    exact ⟨this.1, this.2.1, by simpa [tensorProductGates] using this.2.2⟩

/-! ## Gate expansion paths (`QuantumLinearAlgebra._build_full_gate_matrix`) -/

/-- `_single_qubit_full_matrix`: the list `[I₂, …, gate, …, I₂]` with the gate
at the target position, fed to `tensor_product_gates`. -/
def singleQubitMatrices (g : Mat) (target n : ℕ) : List (Mat × ℕ) :=
  (List.range n).map (fun i => if i = target then (g, 2) else (eye 2, 2))

def singleQubitFullMatrix (g : Mat) (target n : ℕ) : Mat :=
  (tensorProductGates (singleQubitMatrices g target n)).1

/-- The list built by the adjacent branch of `_two_qubit_full_matrix`: the
loop appends the 4×4 `gate` at `i == min(targets)` (its `i += 1` does not
affect a Python `range` loop) and skips `i == max(targets)`. -/
def twoQubitMatrices (g : Mat) (t0 t1 n : ℕ) : List (Mat × ℕ) :=
  (List.range n).filterMap (fun i =>
    if i = min t0 t1 then some (g, 4)
    else if i = max t0 t1 then none
    else some (eye 2, 2))

/-- `i_target` of `_multi_qubit_full_matrix`:
`sum(i_bits[targets[k]] * 2**k for k in range(len(targets)))`. -/
def subIndex (targets : List ℕ) (i : ℕ) : ℕ :=
  ∑ k ∈ Finset.range targets.length,
    if Nat.testBit i (targets.getD k 0) then 2 ^ k else 0

/-- The agreement check of `_multi_qubit_full_matrix`:
`all(i_bits[k] == j_bits[k] for k in range(num_qubits) if k not in targets)`. -/
def nonTargetAgree (targets : List ℕ) (n i j : ℕ) : Prop :=
  ∀ k < n, k ∉ targets → Nat.testBit i k = Nat.testBit j k

instance (targets : List ℕ) (n i j : ℕ) : Decidable (nonTargetAgree targets n i j) := by
  unfold nonTargetAgree; infer_instance

/-- `_multi_qubit_full_matrix`: starts from `np.eye(2**n)` and overwrites entry
`(i, j)` with the gate entry at the target sub-indices whenever all non-target
bits of `i` and `j` agree (which always holds on the diagonal). -/
def multiQubitFullMatrix (g : Mat) (targets : List ℕ) (n : ℕ) : Mat :=
  fun i j =>
    if nonTargetAgree targets n i j then g (subIndex targets i) (subIndex targets j)
    else if i = j then 1 else 0

/-- `_two_qubit_full_matrix`: direct tensor expansion when
`abs(targets[0] - targets[1]) == 1`, otherwise the general multi-qubit path. -/
def twoQubitFullMatrix (g : Mat) (targets : List ℕ) (n : ℕ) : Mat :=
  if ((targets.getD 0 0 : ℤ) - (targets.getD 1 0 : ℤ)).natAbs = 1 then
    (tensorProductGates (twoQubitMatrices g (targets.getD 0 0) (targets.getD 1 0) n)).1
  else
    multiQubitFullMatrix g targets n

/-- `_build_full_gate_matrix`: dispatch on the number of target qubits. -/
def buildFullGateMatrix (g : Mat) (targets : List ℕ) (n : ℕ) : Mat :=
  if targets.length = 1 then singleQubitFullMatrix g (targets.getD 0 0) n
  else if targets.length = 2 then twoQubitFullMatrix g targets n
  else multiQubitFullMatrix g targets n

/-- `apply_gate_to_circuit`: the new state vector `full_gate @ state_vector`. -/
noncomputable def applyGateToCircuit (g : Mat) (targets : List ℕ) (n : ℕ)
    (s : ℕ → ℂ) : ℕ → ℂ :=
  mulVec (buildFullGateMatrix g targets n) (2 ^ n) s

theorem singleQubitFullMatrix_unitary (g : Mat) (target n : ℕ)
    (hg : unitaryOn g 2) : unitaryOn (singleQubitFullMatrix g target n) (2 ^ n) := by
  have hmem : ∀ p ∈ singleQubitMatrices g target n, unitaryOn p.1 p.2 ∧ 0 < p.2 := by
    intro p hp
    obtain ⟨i, _, rfl⟩ := List.mem_map.mp hp
    by_cases h : i = target
    · have heq : (if i = target then (g, 2) else (eye 2, 2)) = (g, 2) := if_pos h
      rw [heq]
      exact ⟨hg, Nat.zero_lt_two⟩
    · have heq : (if i = target then (g, 2) else (eye 2, 2)) = (eye 2, 2) := if_neg h
      rw [heq]
      exact ⟨eye_unitaryOn 2 2, Nat.zero_lt_two⟩
  have h := tensorProductGates_unitary _ hmem
  have hdim : (tensorProductGates (singleQubitMatrices g target n)).2 = 2 ^ n := by
    rw [h.2.2]
    have : (singleQubitMatrices g target n).map Prod.snd = List.replicate n 2 := by
      unfold singleQubitMatrices
      rw [List.map_map]
      have : (Prod.snd ∘ fun i => if i = target then (g, 2) else (eye 2, 2))
          = fun _ : ℕ => (2 : ℕ) := by
        funext i
        by_cases h : i = target <;> simp [h]
      rw [this, List.map_const', List.length_range]
    rw [this, List.prod_replicate]
  rw [← hdim]
  exact h.1

theorem twoQubitMatrices_filterMap_prod (g : Mat) (m M : ℕ) :
    ∀ l : List ℕ,
      (((l.filterMap (fun i =>
          if i = m then some (g, 4)
          else if i = M then none
          else some (eye 2, 2))).map Prod.snd).prod)
        = (l.map (fun i => if i = m then 4 else if i = M then 1 else 2)).prod := by
  intro l
  induction l with
  | nil => simp
  | cons a l ih =>
    by_cases ham : a = m
    · subst ham
      simp [List.filterMap_cons, ih]
    · by_cases haM : a = M
      · subst haM
        simp [List.filterMap_cons, ham, ih]
      · simp [List.filterMap_cons, ham, haM, ih]

theorem prod_range_two_special (m M n : ℕ) (hmM : m ≠ M) (hm : m < n) (hM : M < n) :
    (∏ i ∈ Finset.range n, (if i = m then 4 else if i = M then 1 else 2)) = 2 ^ n := by
  have hmmem : m ∈ Finset.range n := Finset.mem_range.mpr hm
  have hMmem : M ∈ (Finset.range n).erase m :=
    Finset.mem_erase.mpr ⟨Ne.symm hmM, Finset.mem_range.mpr hM⟩
  rw [← Finset.mul_prod_erase (Finset.range n) _ hmmem, if_pos rfl]
  rw [← Finset.mul_prod_erase _ _ hMmem]
  have hMne : ¬ (M = m) := fun h => hmM h.symm
  rw [show (if M = m then 4 else if M = M then 1 else 2) = 1 by simp [hMne]]
  have hconst : ∀ x ∈ ((Finset.range n).erase m).erase M,
      (if x = m then 4 else if x = M then 1 else 2) = 2 := by
    intro x hx
    have hxM := (Finset.mem_erase.mp hx).1
    have hxm := (Finset.mem_erase.mp (Finset.mem_erase.mp hx).2).1
    simp [hxm, hxM]
  rw [Finset.prod_congr rfl hconst, Finset.prod_const]
  have hcard : (((Finset.range n).erase m).erase M).card = n - 2 := by
    rw [Finset.card_erase_of_mem hMmem, Finset.card_erase_of_mem hmmem, Finset.card_range]
    omega
  rw [hcard]
  have hn2 : 2 ≤ n := by omega
  have : (4 : ℕ) = 2 ^ 2 := rfl
  rw [this, one_mul, ← pow_add]
  congr 1
  omega

theorem twoQubitAdjacent_unitary (g : Mat) (t0 t1 n : ℕ)
    (hne : t0 ≠ t1) (hmax : max t0 t1 < n) (hg : unitaryOn g 4) :
    unitaryOn ((tensorProductGates (twoQubitMatrices g t0 t1 n)).1) (2 ^ n) := by
  have hmem : ∀ p ∈ twoQubitMatrices g t0 t1 n, unitaryOn p.1 p.2 ∧ 0 < p.2 := by
    intro p hp
    obtain ⟨a, _, hfa⟩ := List.mem_filterMap.mp hp
    by_cases ham : a = min t0 t1
    · rw [if_pos ham] at hfa
      cases hfa
      exact ⟨hg, by norm_num⟩
    · rw [if_neg ham] at hfa
      by_cases haM : a = max t0 t1
      · rw [if_pos haM] at hfa; cases hfa
      · rw [if_neg haM] at hfa
        cases hfa
        exact ⟨eye_unitaryOn 2 2, Nat.zero_lt_two⟩
  have h := tensorProductGates_unitary _ hmem
  have hdim : (tensorProductGates (twoQubitMatrices g t0 t1 n)).2 = 2 ^ n := by
    rw [h.2.2]
    unfold twoQubitMatrices
    rw [twoQubitMatrices_filterMap_prod g (min t0 t1) (max t0 t1) (List.range n)]
    have hbridge : ((List.range n).map
        (fun i => if i = min t0 t1 then 4 else if i = max t0 t1 then 1 else 2)).prod
        = ∏ i ∈ Finset.range n,
            (if i = min t0 t1 then 4 else if i = max t0 t1 then 1 else 2) := rfl
    rw [hbridge]
    exact prod_range_two_special _ _ n (by omega) (by omega) hmax
  rw [← hdim]
  exact h.1

/-! ### Bit-indexed sums for the multi-qubit path -/

/-- `∑_{k<n} f k · 2^k`: the number whose low `n` bits are given by `f`. -/
def bitSum (n : ℕ) (f : ℕ → Bool) : ℕ :=
  ∑ k ∈ Finset.range n, if f k then 2 ^ k else 0

theorem bitSum_lt (n : ℕ) (f : ℕ → Bool) : bitSum n f < 2 ^ n := by
  induction n with
  | zero => simp [bitSum]
  | succ n ih =>
    unfold bitSum at ih ⊢
    rw [Finset.sum_range_succ]
    have h2 : (if f n then 2 ^ n else 0) ≤ 2 ^ n := by
      by_cases h : f n <;> simp [h]
    have : 2 ^ (n + 1) = 2 ^ n + 2 ^ n := by ring
    omega

theorem testBit_bitSum (n : ℕ) (f : ℕ → Bool) (k : ℕ) :
    (bitSum n f).testBit k = (decide (k < n) && f k) := by
  induction n generalizing k with
  | zero => simp [bitSum]
  | succ n ih =>
    have hsplit : bitSum (n + 1) f
        = 2 ^ n * (if f n then 1 else 0) + bitSum n f := by
      unfold bitSum
      rw [Finset.sum_range_succ]
      by_cases h : f n <;> simp [h] <;> ring
    rw [hsplit, Nat.testBit_mul_pow_two_add _ (bitSum_lt n f) k]
    by_cases hk : k < n
    · rw [if_pos hk, ih]
      have : k < n + 1 := by omega
      simp [hk, this]
    · rw [if_neg hk]
      by_cases hkn : k = n
      · subst hkn
        have : k - k = 0 := by omega
        rw [this]
        by_cases h : f k <;> simp [h]
      · have hkgt : n < k := by omega
        have h1 : ¬ (k < n + 1) := by omega
        have hlt : (if f n then 1 else 0) < 2 ^ (k - n) := by
          have : 1 ≤ k - n := by omega
          have h2 : 2 ≤ 2 ^ (k - n) := by
            calc 2 = 2 ^ 1 := rfl
            _ ≤ 2 ^ (k - n) := Nat.pow_le_pow_right (by norm_num) this
          by_cases h : f n <;> simp [h] <;> omega
        rw [Nat.testBit_lt_two_pow hlt]
        simp [h1]

theorem bitSum_eq_self (n : ℕ) (s : ℕ) (hs : s < 2 ^ n) :
    bitSum n (fun k => s.testBit k) = s := by
  apply Nat.eq_of_testBit_eq
  intro k
  rw [testBit_bitSum]
  by_cases hk : k < n
  · simp [hk]
  · have : s < 2 ^ k := by
      calc s < 2 ^ n := hs
      _ ≤ 2 ^ k := Nat.pow_le_pow_right (by norm_num) (by omega)
    rw [Nat.testBit_lt_two_pow this]
    simp [hk]

/-- The index obtained from `i` by overwriting the bits at the target positions
with the bits of `s` (bit `k` of `s` goes to bit position `targets[k]`): the
inverse of `subIndex` on each fibre of the non-target bits. -/
def patch (targets : List ℕ) (n i s : ℕ) : ℕ :=
  bitSum n (fun k =>
    if k ∈ targets then s.testBit (targets.indexOf k) else i.testBit k)

theorem subIndex_lt (targets : List ℕ) (i : ℕ) :
    subIndex targets i < 2 ^ targets.length :=
  bitSum_lt _ _

theorem testBit_subIndex (targets : List ℕ) (i k : ℕ) :
    (subIndex targets i).testBit k
      = (decide (k < targets.length) && i.testBit (targets.getD k 0)) :=
  testBit_bitSum _ _ _

theorem patch_lt (targets : List ℕ) (n i s : ℕ) : patch targets n i s < 2 ^ n :=
  bitSum_lt _ _

theorem testBit_patch (targets : List ℕ) (n i s k : ℕ) :
    (patch targets n i s).testBit k
      = (decide (k < n) &&
          (if k ∈ targets then s.testBit (targets.indexOf k) else i.testBit k)) :=
  testBit_bitSum _ _ _

theorem nonTargetAgree_refl (ts : List ℕ) (n i : ℕ) : nonTargetAgree ts n i i :=
  fun _ _ _ => rfl

theorem nonTargetAgree_symm {ts : List ℕ} {n i j : ℕ}
    (h : nonTargetAgree ts n i j) : nonTargetAgree ts n j i :=
  fun k hk hkts => (h k hk hkts).symm

theorem nonTargetAgree_trans {ts : List ℕ} {n i j l : ℕ}
    (h1 : nonTargetAgree ts n i j) (h2 : nonTargetAgree ts n j l) :
    nonTargetAgree ts n i l :=
  fun k hk hkts => (h1 k hk hkts).trans (h2 k hk hkts)

theorem multiQubitFullMatrix_eq (g : Mat) (ts : List ℕ) (n i j : ℕ) :
    multiQubitFullMatrix g ts n i j
      = if nonTargetAgree ts n i j then g (subIndex ts i) (subIndex ts j) else 0 := by
  unfold multiQubitFullMatrix
  by_cases h : nonTargetAgree ts n i j
  · simp [h]
  · have hij : i ≠ j := fun he => h (he ▸ nonTargetAgree_refl ts n i)
    simp [h, hij]

theorem patch_agree (ts : List ℕ) (n i s : ℕ) :
    nonTargetAgree ts n (patch ts n i s) i := by
  intro k hk hkts
  rw [testBit_patch]
  simp [hk, hkts]

theorem patch_subIndex (ts : List ℕ) (n i s : ℕ) (hnd : ts.Nodup)
    (hb : ∀ t ∈ ts, t < n) (hs : s < 2 ^ ts.length) :
    subIndex ts (patch ts n i s) = s := by
  apply Nat.eq_of_testBit_eq
  intro k
  rw [testBit_subIndex]
  by_cases hk : k < ts.length
  · have hgetD : ts.getD k 0 = ts[k] := List.getD_eq_getElem ts 0 hk
    have htmem : ts[k] ∈ ts := List.getElem_mem hk
    have htn : ts[k] < n := hb _ htmem
    rw [hgetD, testBit_patch]
    have hidx : ts.indexOf ts[k] = k := List.indexOf_getElem hnd k hk
    simp [hk, htn, htmem, hidx]
  · have h1 : s.testBit k = false := by
      apply Nat.testBit_lt_two_pow
      calc s < 2 ^ ts.length := hs
      _ ≤ 2 ^ k := Nat.pow_le_pow_right (by norm_num) (by omega)
    simp [hk, h1]

theorem subIndex_patch (ts : List ℕ) (n i l : ℕ) (hnd : ts.Nodup)
    (hb : ∀ t ∈ ts, t < n) (hl : l < 2 ^ n) (hagree : nonTargetAgree ts n l i) :
    patch ts n i (subIndex ts l) = l := by
  apply Nat.eq_of_testBit_eq
  intro k
  rw [testBit_patch]
  by_cases hk : k < n
  · by_cases hkts : k ∈ ts
    · have hidx : ts.indexOf k < ts.length := List.indexOf_lt_length.mpr hkts
      rw [if_pos hkts, testBit_subIndex]
      have hgetD : ts.getD (ts.indexOf k) 0 = ts[ts.indexOf k] :=
        List.getD_eq_getElem ts 0 hidx
      have hgk : ts[ts.indexOf k] = k := List.getElem_indexOf hidx
      simp [hk, hidx, hgetD, hgk]
    · rw [if_neg hkts]
      have := hagree k hk hkts
      simp [hk, this]
  · have h1 : l.testBit k = false := by
      apply Nat.testBit_lt_two_pow
      calc l < 2 ^ n := hl
      _ ≤ 2 ^ k := Nat.pow_le_pow_right (by norm_num) (by omega)
    simp [hk, h1]

theorem subIndex_inj (ts : List ℕ) (n i j : ℕ) (hnd : ts.Nodup)
    (hb : ∀ t ∈ ts, t < n) (hi : i < 2 ^ n) (hj : j < 2 ^ n)
    (hagree : nonTargetAgree ts n i j) (hsub : subIndex ts i = subIndex ts j) :
    i = j := by
  have h1 : patch ts n j (subIndex ts i) = i :=
    subIndex_patch ts n j i hnd hb hi hagree
  have h2 : patch ts n j (subIndex ts j) = j :=
    subIndex_patch ts n j j hnd hb hj (nonTargetAgree_refl ts n j)
  rw [← h1, hsub, h2]

theorem multiQubitFullMatrix_unitary (g : Mat) (ts : List ℕ) (n : ℕ)
    (hnd : ts.Nodup) (hb : ∀ t ∈ ts, t < n) (hg : unitaryOn g (2 ^ ts.length)) :
    unitaryOn (multiQubitFullMatrix g ts n) (2 ^ n) := by
  intro i hi j hj
  have hsummand : ∀ l,
      starRingEnd ℂ (multiQubitFullMatrix g ts n l i) * multiQubitFullMatrix g ts n l j
        = if nonTargetAgree ts n l i ∧ nonTargetAgree ts n l j then
            starRingEnd ℂ (g (subIndex ts l) (subIndex ts i)) *
              g (subIndex ts l) (subIndex ts j)
          else 0 := by
    intro l
    rw [multiQubitFullMatrix_eq, multiQubitFullMatrix_eq]
    by_cases h1 : nonTargetAgree ts n l i <;> by_cases h2 : nonTargetAgree ts n l j <;>
      simp [h1, h2]
  rw [Finset.sum_congr rfl fun l _ => hsummand l]
  by_cases hij : nonTargetAgree ts n i j
  · have hcond : ∀ l,
        (if nonTargetAgree ts n l i ∧ nonTargetAgree ts n l j then
            starRingEnd ℂ (g (subIndex ts l) (subIndex ts i)) *
              g (subIndex ts l) (subIndex ts j)
          else 0)
        = if nonTargetAgree ts n l i then
            starRingEnd ℂ (g (subIndex ts l) (subIndex ts i)) *
              g (subIndex ts l) (subIndex ts j)
          else 0 := by
      intro l
      by_cases h : nonTargetAgree ts n l i
      · rw [if_pos ⟨h, nonTargetAgree_trans h hij⟩, if_pos h]
      · rw [if_neg (fun hc => h hc.1), if_neg h]
    rw [Finset.sum_congr rfl fun l _ => hcond l, ← Finset.sum_filter]
    have hreindex :
        (∑ l ∈ (Finset.range (2 ^ n)).filter (fun l => nonTargetAgree ts n l i),
          starRingEnd ℂ (g (subIndex ts l) (subIndex ts i)) *
            g (subIndex ts l) (subIndex ts j))
        = ∑ t ∈ Finset.range (2 ^ ts.length),
            starRingEnd ℂ (g t (subIndex ts i)) * g t (subIndex ts j) := by
      refine Finset.sum_bij' (fun l _ => subIndex ts l) (fun t _ => patch ts n i t)
        ?_ ?_ ?_ ?_ ?_
      · intro l _
        exact Finset.mem_range.mpr (subIndex_lt ts l)
      · intro t ht
        refine Finset.mem_filter.mpr ⟨Finset.mem_range.mpr (patch_lt ts n i t), ?_⟩
        exact patch_agree ts n i t
      · intro l hl
        have hl' := Finset.mem_filter.mp hl
        exact subIndex_patch ts n i l hnd hb (Finset.mem_range.mp hl'.1) hl'.2
      · intro t ht
        exact patch_subIndex ts n i t hnd hb (Finset.mem_range.mp ht)
      · intro l _
        rfl
    rw [hreindex, hg _ (subIndex_lt ts i) _ (subIndex_lt ts j)]
    by_cases hijeq : i = j
    · subst hijeq
      simp
    · have hsub : subIndex ts i ≠ subIndex ts j :=
        fun h => hijeq (subIndex_inj ts n i j hnd hb hi hj hij h)
      rw [if_neg hsub, if_neg hijeq]
  · have hzero : ∀ l ∈ Finset.range (2 ^ n),
        (if nonTargetAgree ts n l i ∧ nonTargetAgree ts n l j then
            starRingEnd ℂ (g (subIndex ts l) (subIndex ts i)) *
              g (subIndex ts l) (subIndex ts j)
          else 0) = 0 := by
      intro l _
      rw [if_neg]
      rintro ⟨h1, h2⟩
      exact hij (nonTargetAgree_trans (nonTargetAgree_symm h1) h2)
    rw [Finset.sum_congr rfl hzero, Finset.sum_const]
    have hijeq : i ≠ j := fun he => hij (he ▸ nonTargetAgree_refl ts n i)
    simp [hijeq]

theorem buildFullGateMatrix_unitary (g : Mat) (targets : List ℕ) (n : ℕ)
    (hnd : targets.Nodup) (hb : ∀ t ∈ targets, t < n)
    (hg : unitaryOn g (2 ^ targets.length)) :
    unitaryOn (buildFullGateMatrix g targets n) (2 ^ n) := by
  unfold buildFullGateMatrix
  by_cases h1 : targets.length = 1
  · rw [if_pos h1]
    rw [h1, pow_one] at hg
    exact singleQubitFullMatrix_unitary g _ n hg
  · rw [if_neg h1]
    by_cases h2 : targets.length = 2
    · rw [if_pos h2]
      unfold twoQubitFullMatrix
      by_cases hadj : ((targets.getD 0 0 : ℤ) - (targets.getD 1 0 : ℤ)).natAbs = 1
      · rw [if_pos hadj]
        have hne : targets.getD 0 0 ≠ targets.getD 1 0 := by
          intro he
          rw [he] at hadj
          simp at hadj
        have ht0 : targets.getD 0 0 ∈ targets := by
          have h0 : 0 < targets.length := by omega
          rw [List.getD_eq_getElem targets 0 h0]
          exact List.getElem_mem h0
        have ht1 : targets.getD 1 0 ∈ targets := by
          have h0 : 1 < targets.length := by omega
          rw [List.getD_eq_getElem targets 0 h0]
          exact List.getElem_mem h0
        have hmax : max (targets.getD 0 0) (targets.getD 1 0) < n :=
          max_lt (hb _ ht0) (hb _ ht1)
        rw [h2] at hg
        exact twoQubitAdjacent_unitary g _ _ n hne hmax hg
      · rw [if_neg hadj]
        exact multiQubitFullMatrix_unitary g targets n hnd hb hg
    · rw [if_neg h2]
      exact multiQubitFullMatrix_unitary g targets n hnd hb hg

/-- The Pauli-X matrix `[[0, 1], [1, 0]]` (`gate_cache['pauli_x']`). -/
def pauliX2 : Mat := fun i j =>
  if i = 0 ∧ j = 1 then 1 else if i = 1 ∧ j = 0 then 1 else 0

theorem pauliX2_unitaryOn : unitaryOn pauliX2 2 := by
  intro i hi j hj
  interval_cases i <;> interval_cases j <;>
    simp [pauliX2, Finset.sum_range_succ]

/-- C4: for every well-formed gate (distinct in-range targets, unitary matrix
of side `2^k` for its `k` targets) and every state vector, applying the gate
through `apply_gate_to_circuit` preserves the Euclidean norm exactly — hence
in particular within `1e-9` — on every expansion path of
`_build_full_gate_matrix` (single-qubit, two-qubit adjacent, and the general
multi-qubit fallback, which the dispatch selects from the target count and
adjacency). -/
theorem apply_gate_preserves_norm (g : Mat) (targets : List ℕ) (n : ℕ) (s : ℕ → ℂ)
    (hnd : targets.Nodup) (hb : ∀ t ∈ targets, t < n)
    (hg : unitaryOn g (2 ^ targets.length)) :
    vecNorm (applyGateToCircuit g targets n s) (2 ^ n) = vecNorm s (2 ^ n) ∧
      |vecNorm (applyGateToCircuit g targets n s) (2 ^ n) - vecNorm s (2 ^ n)|
        ≤ 1e-9 := by
  have huni := buildFullGateMatrix_unitary g targets n hnd hb hg
  have heq : vecNorm (applyGateToCircuit g targets n s) (2 ^ n) = vecNorm s (2 ^ n) :=
    unitary_vecNorm _ _ s huni
  refine ⟨heq, ?_⟩
  rw [heq, sub_self, abs_zero]
  norm_num

/-- Witness for C4: the Pauli-X gate on qubit 0 of a 1-qubit circuit in state
`|0⟩` satisfies all hypotheses, and the norm is preserved. -/
theorem apply_gate_preserves_norm_witness :
    ([0] : List ℕ).Nodup ∧ (∀ t ∈ ([0] : List ℕ), t < 1) ∧
      unitaryOn pauliX2 (2 ^ ([0] : List ℕ).length) ∧
      (vecNorm (applyGateToCircuit pauliX2 [0] 1 (fun i => if i = 0 then 1 else 0)) (2 ^ 1)
          = vecNorm (fun i => if i = 0 then 1 else 0) (2 ^ 1) ∧
        |vecNorm (applyGateToCircuit pauliX2 [0] 1 (fun i => if i = 0 then 1 else 0)) (2 ^ 1)
            - vecNorm (fun i => if i = 0 then 1 else 0) (2 ^ 1)| ≤ 1e-9) := by
  have hnd : ([0] : List ℕ).Nodup := by decide
  have hb : ∀ t ∈ ([0] : List ℕ), t < 1 := by decide
  have hg : unitaryOn pauliX2 (2 ^ ([0] : List ℕ).length) := by
    have : (2 : ℕ) ^ ([0] : List ℕ).length = 2 := rfl
    rw [this]
    exact pauliX2_unitaryOn
  exact ⟨hnd, hb, hg,
    apply_gate_preserves_norm pauliX2 [0] 1 (fun i => if i = 0 then 1 else 0) hnd hb hg⟩

/-! ## C1: the Steane syndrome table is not a bijection on the 15 cases -/

/-- The syndromes assigned to the 15 cases of the claim — no error, single X
error on qubit `i`, single Z error on qubit `i` — as computed by
`_build_syndrome_table`. -/
def steaneCaseSyndromes : List (List ℕ) :=
  [[0, 0, 0]]
    ++ ((List.range 7).map (syndromeOf xStabilizers))
    ++ ((List.range 7).map (syndromeOf zStabilizers))

/-- C1 (refutation / bug evidence): the X error on qubit 0 and the Z error on
qubit 0 are assigned the *same* syndrome key `(1,1,1)` (the X- and Z-stabilizer
row lists coincide), so the 15 cases do not receive 15 pairwise-distinct
syndromes, and the dict retains only the later `('Z', 0)` entry for the shared
key. The no-error case does map to the all-zero syndrome, and the 8 distinct
keys that remain — the 7 matrix columns plus `(0,0,0)` — are pairwise
distinct. -/
theorem steane_syndrome_table_not_bijective :
    syndromeOf xStabilizers 0 = [1, 1, 1] ∧
    syndromeOf zStabilizers 0 = [1, 1, 1] ∧
    syndromeTable [1, 1, 1] = some (ErrTag.Z 0) ∧
    ¬ steaneCaseSyndromes.Nodup ∧
    ([[0, 0, 0]] ++ (List.range 7).map (syndromeOf xStabilizers)).Nodup ∧
    syndromeTable [0, 0, 0] = some (ErrTag.I (-1)) := by
  exact ⟨by decide, by decide, by decide, by decide, by decide, by decide⟩

/-! ## C7: Shor-9 `correct_errors` is a no-op -/

/-- `ShorCodeCorrector.correct_errors`: copies the physical state and returns
it without any modification (`corrected_state = physical_state.copy()`;
the correction logic is left unimplemented). -/
def shorCorrectErrors (s : ℕ → ℂ) (_syndrome : List ℕ) : ℕ → ℂ :=
  fun i => s i

/-- C7: for every physical state vector and every syndrome, Shor-9
`correct_errors` returns a state elementwise equal to its input. -/
theorem shor_correct_errors_noop (s : ℕ → ℂ) (syndrome : List ℕ) (i : ℕ) :
    shorCorrectErrors s syndrome i = s i := rfl

/-! ## C9: `QuantumCircuit.add_gate` validation -/

/-- Python's built-in `max` on a nonempty list of ints (the source calls
`max(gate.qubits)`; the value returned here for `[]` is never used — Python
would raise a different error there). -/
def pyMax : List ℤ → ℤ
  | [] => 0
  | q :: rest => rest.foldl max q

/-- `QuantumCircuit.add_gate` raises its validation `ValueError` iff
`max(gate.qubits) >= self.num_qubits`. -/
def addGateRejects (qubits : List ℤ) (numQubits : ℕ) : Bool :=
  decide ((numQubits : ℤ) ≤ pyMax qubits)

/-- C9 (counterexample): a gate whose only target is the out-of-range index
`-1` is accepted by `add_gate` on a 1-qubit circuit, although `-1 ∉ [0, 1)` —
so "raises iff some target lies outside `[0, n)`" is false. -/
theorem add_gate_accepts_negative_index :
    addGateRejects [-1] 1 = false ∧
      (-1 : ℤ) ∈ [(-1 : ℤ)] ∧ ¬ (0 ≤ (-1 : ℤ) ∧ (-1 : ℤ) < (1 : ℕ)) := by
  exact ⟨by decide, by decide, by decide⟩

theorem foldl_max_le_iff (n : ℤ) :
    ∀ (l : List ℤ) (a : ℤ), n ≤ l.foldl max a ↔ n ≤ a ∨ ∃ q ∈ l, n ≤ q := by
  intro l
  induction l with
  | nil => intro a; simp
  | cons b t ih =>
    intro a
    rw [List.foldl_cons, ih (max a b), le_max_iff]
    constructor
    · rintro ((h | h) | ⟨q, hq, hnq⟩)
      · exact Or.inl h
      · exact Or.inr ⟨b, List.mem_cons_self b t, h⟩
      · exact Or.inr ⟨q, List.mem_cons_of_mem b hq, hnq⟩
    · rintro (h | ⟨q, hq, hnq⟩)
      · exact Or.inl (Or.inl h)
      · rcases List.mem_cons.mp hq with rfl | hq'
        · exact Or.inl (Or.inr hnq)
        · exact Or.inr ⟨q, hq', hnq⟩

/-- C9 (amended): for every nonempty target list, `add_gate` raises iff some
target index is `≥ num_qubits`; negative target indices are never rejected. -/
theorem add_gate_rejects_iff (qubits : List ℤ) (n : ℕ) (hne : qubits ≠ []) :
    addGateRejects qubits n = true ↔ ∃ q ∈ qubits, (n : ℤ) ≤ q := by
  match qubits, hne with
  | q :: rest, _ =>
    unfold addGateRejects pyMax
    rw [decide_eq_true_iff, foldl_max_le_iff]
    constructor
    · rintro (h | ⟨p, hp, hnp⟩)
      · exact ⟨q, List.mem_cons_self q rest, h⟩
      · exact ⟨p, List.mem_cons_of_mem q hp, hnp⟩
    · rintro ⟨p, hp, hnp⟩
      rcases List.mem_cons.mp hp with rfl | hp'
      · exact Or.inl hnp
      · exact Or.inr ⟨p, hp', hnp⟩

/-- Witness for C9 (amended): on a 1-qubit circuit, the gate `[2]` is
rejected, matching `∃ q ∈ [2], 1 ≤ q`. -/
theorem add_gate_rejects_iff_witness :
    ([(2 : ℤ)] ≠ []) ∧
      (addGateRejects [2] 1 = true ↔ ∃ q ∈ [(2 : ℤ)], (1 : ℤ) ≤ q) :=
  ⟨by decide, add_gate_rejects_iff [2] 1 (by decide)⟩

/-! ## C8: simulation histogram counts sum to `shots` -/

/-- `format(outcome, '0{n}b')`: the `n`-character bit pattern of a measurement
outcome, most significant qubit first. -/
def bitPattern (n o : ℕ) : List Bool :=
  (List.range n).map (fun k => o.testBit (n - 1 - k))

/-- The measurement-count dictionary built by `simulate_circuit`,
`counts[bit_string] = counts.get(bit_string, 0) + 1` folded over the sampled
outcomes, as a total function defaulting to 0. -/
def simulationCounts (n : ℕ) (outcomes : List ℕ) : List Bool → ℕ :=
  outcomes.foldl
    (fun counts o key => if key = bitPattern n o then counts key + 1 else counts key)
    (fun _ => 0)

theorem simulationCounts_foldl (n : ℕ) :
    ∀ (os : List ℕ) (acc : List Bool → ℕ) (key : List Bool),
      os.foldl
          (fun counts o k => if k = bitPattern n o then counts k + 1 else counts k)
          acc key
        = acc key + os.countP (fun o => decide (key = bitPattern n o)) := by
  intro os
  induction os with
  | nil => intro acc key; simp
  | cons o t ih =>
    intro acc key
    rw [List.foldl_cons, ih, List.countP_cons]
    by_cases h : key = bitPattern n o
    · simp only [h, if_pos rfl]
      simp
      omega
    · simp only [if_neg h]
      simp [h]

theorem bitPattern_length (n o : ℕ) : (bitPattern n o).length = n := by
  simp [bitPattern]

theorem bitPattern_inj (n a b : ℕ) (ha : a < 2 ^ n) (hb : b < 2 ^ n)
    (h : bitPattern n a = bitPattern n b) : a = b := by
  apply Nat.eq_of_testBit_eq
  intro k
  by_cases hk : k < n
  · have hm : n - 1 - k < n := by omega
    have h1 : (bitPattern n a).getD (n - 1 - k) false = a.testBit (n - 1 - (n - 1 - k)) := by
      rw [bitPattern, List.getD_eq_getElem _ _ (by simpa using hm)]
      simp
    have h2 : (bitPattern n b).getD (n - 1 - k) false = b.testBit (n - 1 - (n - 1 - k)) := by
      rw [bitPattern, List.getD_eq_getElem _ _ (by simpa using hm)]
      simp
    have hkk : n - 1 - (n - 1 - k) = k := by omega
    rw [hkk] at h1 h2
    rw [← h1, ← h2, h]
  · rw [Nat.testBit_lt_two_pow, Nat.testBit_lt_two_pow]
    · calc b < 2 ^ n := hb
      _ ≤ 2 ^ k := Nat.pow_le_pow_right (by norm_num) (by omega)
    · calc a < 2 ^ n := ha
      _ ≤ 2 ^ k := Nat.pow_le_pow_right (by norm_num) (by omega)

theorem sum_countP_bitPattern (n : ℕ) :
    ∀ os : List ℕ, (∀ o ∈ os, o < 2 ^ n) →
      (∑ o ∈ Finset.range (2 ^ n),
        os.countP (fun x => decide (bitPattern n o = bitPattern n x)))
        = os.length := by
  intro os
  induction os with
  | nil => intro _; simp
  | cons x t ih =>
    intro hos
    have hx : x < 2 ^ n := hos x (List.mem_cons_self x t)
    have ht : ∀ o ∈ t, o < 2 ^ n := fun o ho => hos o (List.mem_cons_of_mem x ho)
    have hsplit : ∀ o,
        (x :: t).countP (fun y => decide (bitPattern n o = bitPattern n y))
          = t.countP (fun y => decide (bitPattern n o = bitPattern n y))
            + (if bitPattern n o = bitPattern n x then 1 else 0) := by
      intro o
      rw [List.countP_cons]
      by_cases h : bitPattern n o = bitPattern n x <;> simp [h]
    rw [Finset.sum_congr rfl fun o _ => hsplit o, Finset.sum_add_distrib, ih ht]
    have hone : (∑ o ∈ Finset.range (2 ^ n),
        if bitPattern n o = bitPattern n x then 1 else 0) = 1 := by
      have heq : ∀ o ∈ Finset.range (2 ^ n),
          (if bitPattern n o = bitPattern n x then (1 : ℕ) else 0)
            = if o = x then 1 else 0 := by
        intro o ho
        by_cases h : o = x
        · simp [h]
        · have : bitPattern n o ≠ bitPattern n x := fun hp =>
            h (bitPattern_inj n o x (Finset.mem_range.mp ho) hx hp)
          simp [h, this]
      rw [Finset.sum_congr rfl heq]
      rw [Finset.sum_ite_eq' (Finset.range (2 ^ n)) x fun _ => (1 : ℕ)]
      simp [Finset.mem_range.mpr hx]
    rw [hone, List.length_cons]

/-- C8: for any list of sampled outcomes below `2^n` (as `np.random.choice`
guarantees when the probabilities form a valid distribution) whose length is
`shots`, the histogram keys are `n`-character bit patterns and the counts sum
to exactly `shots`. -/
theorem simulation_counts_sum (n : ℕ) (outcomes : List ℕ) (shots : ℕ)
    (hrange : ∀ o ∈ outcomes, o < 2 ^ n) (hlen : outcomes.length = shots) :
    (∀ o, (bitPattern n o).length = n) ∧
      (∑ o ∈ Finset.range (2 ^ n), simulationCounts n outcomes (bitPattern n o))
        = shots := by
  refine ⟨fun o => bitPattern_length n o, ?_⟩
  have hc : ∀ o, simulationCounts n outcomes (bitPattern n o)
      = outcomes.countP (fun x => decide (bitPattern n o = bitPattern n x)) := by
    intro o
    rw [simulationCounts, simulationCounts_foldl]
    rw [Nat.zero_add]
  rw [Finset.sum_congr rfl fun o _ => hc o, sum_countP_bitPattern n outcomes hrange, hlen]

/-- Witness for C8: three draws `[0, 3, 3]` on a 2-qubit register sum to 3. -/
theorem simulation_counts_sum_witness :
    (∀ o ∈ [0, 3, 3], o < 2 ^ 2) ∧ ([0, 3, 3] : List ℕ).length = 3 ∧
      ((∀ o, (bitPattern 2 o).length = 2) ∧
        (∑ o ∈ Finset.range (2 ^ 2), simulationCounts 2 [0, 3, 3] (bitPattern 2 o))
          = 3) :=
  ⟨by decide, by decide, simulation_counts_sum 2 [0, 3, 3] 3 (by decide) (by decide)⟩

/-! ## Steane-7 code states and operations (`SteaneCodeCorrector`) -/

/-- The eight basis indices of the Steane `|0⟩_L` codeword
(`zero_logical[...] = 1/np.sqrt(8)`). -/
def steaneZeroCodewords : List ℕ :=
  [0b0000000, 0b1010101, 0b0110011, 0b1100110, 0b0001111, 0b1011010, 0b0111100, 0b1101001]

/-- The eight basis indices of the Steane `|1⟩_L` codeword. -/
def steaneOneCodewords : List ℕ :=
  [0b1111111, 0b0101010, 0b1001100, 0b0011001, 0b1110000, 0b0100101, 0b1000011, 0b0010110]

/-- `SteaneCodeCorrector.encode` for logical state `[α, β]`:
`alpha * zero_logical + beta * one_logical`, each codeword with amplitude
`1/np.sqrt(8)`. -/
noncomputable def steaneEncode (α β : ℂ) : ℕ → ℂ := fun i =>
  α * (if i ∈ steaneZeroCodewords then ((1 / Real.sqrt 8 : ℝ) : ℂ) else 0)
    + β * (if i ∈ steaneOneCodewords then ((1 / Real.sqrt 8 : ℝ) : ℂ) else 0)

/-- `SteaneCodeCorrector._get_logical_projector`: the diagonal matrix with
`proj[cw, cw] = 1/8` at the given codeword indices. -/
noncomputable def steaneProjector (codewords : List ℕ) : Mat := fun i j =>
  if i = j ∧ i ∈ codewords then (1 / 8 : ℂ) else 0

/-- The final normalisation step shared verbatim by `SteaneCodeCorrector.decode`
and `ShorCodeCorrector.decode`, taking the real parts of the two projector
quadratic forms.  A negative input makes `np.sqrt` return NaN in the source;
the NaN propagates into `norm`, the comparison `norm > 0` is then false, and
the `[1, 0]` fallback is returned — modelled by the explicit first guard. -/
noncomputable def decodePair (zsq osq : ℝ) : ℂ × ℂ :=
  if zsq < 0 ∨ osq < 0 then (1, 0)
  else if 0 < Real.sqrt (Real.sqrt zsq ^ 2 + Real.sqrt osq ^ 2) then
    (((Real.sqrt zsq / Real.sqrt (Real.sqrt zsq ^ 2 + Real.sqrt osq ^ 2) : ℝ) : ℂ),
     ((Real.sqrt osq / Real.sqrt (Real.sqrt zsq ^ 2 + Real.sqrt osq ^ 2) : ℝ) : ℂ))
  else (1, 0)

/-- `SteaneCodeCorrector.decode` on a 128-amplitude physical state. -/
noncomputable def steaneDecode (s : ℕ → ℂ) : ℂ × ℂ :=
  decodePair (quadForm (steaneProjector steaneZeroCodewords) 128 s).re
    (quadForm (steaneProjector steaneOneCodewords) 128 s).re

/-- The Pauli-Z matrix `[[1, 0], [0, -1]]`. -/
def pauliZ2 : Mat := fun i j =>
  if i = 0 ∧ j = 0 then 1 else if i = 1 ∧ j = 1 then -1 else 0

/-- The tensor-product loop of `_measure_pauli_operator`: starting from
`np.array([[1]])`, `np.kron` the single-qubit operator (where the stabilizer
bit is 1) or the identity (where it is 0), left to right. -/
def pauliOperator (bits : List ℕ) (single : Mat) : Mat :=
  bits.foldl (fun acc b => kron acc 2 (if b = 1 then single else eye 2)) (eye 1)

/-- `_measure_pauli_operator`: the expectation value
`np.real(state.conj().T @ operator @ state)`. -/
noncomputable def measurePauliOperator (s : ℕ → ℂ) (bits : List ℕ) (single : Mat) : ℝ :=
  (quadForm (pauliOperator bits single) (2 ^ bits.length) s).re

/-- `SteaneCodeCorrector.measure_syndrome`: three X-stabilizer bits followed by
three Z-stabilizer bits, each `int(measurement < 0)`. -/
noncomputable def steaneMeasureSyndrome (s : ℕ → ℂ) : List ℕ :=
  (xStabilizers.map fun stab => if measurePauliOperator s stab pauliX2 < 0 then 1 else 0)
    ++ (zStabilizers.map fun stab => if measurePauliOperator s stab pauliZ2 < 0 then 1 else 0)

/-- `_apply_bit_flip` of `FaultTolerantQuantumService` and the X branch of
`_apply_pauli_correction`: `flipped[i] = state[i ^ (1 << (N-1-qubit))]`. -/
def applyBitFlip (s : ℕ → ℂ) (numQubits qubit : ℕ) : ℕ → ℂ :=
  fun i => s (i ^^^ (1 <<< (numQubits - 1 - qubit)))

/-- `_apply_phase_flip` and the Z branch of `_apply_pauli_correction`:
negate the amplitudes whose bit `N-1-qubit` is set (`(i >> (N-1-qubit)) & 1`). -/
def applyPhaseFlip (s : ℕ → ℂ) (numQubits qubit : ℕ) : ℕ → ℂ :=
  fun i => if (i >>> (numQubits - 1 - qubit)) % 2 = 1 then -s i else s i

/-- `SteaneCodeCorrector.correct_errors`: look up the first three syndrome bits
and the last three independently; apply the tabulated single-qubit correction
when the entry has the matching error type and a nonnegative qubit index
(`N = int(np.log2(len(state))) = 7` here). -/
noncomputable def steaneCorrectErrors (s : ℕ → ℂ) (syndrome : List ℕ) : ℕ → ℂ :=
  let afterX : ℕ → ℂ :=
    match syndromeTable (syndrome.take 3) with
    | some (ErrTag.X q) => if 0 ≤ q then applyBitFlip s 7 q.toNat else s
    | _ => s
  match syndromeTable (syndrome.drop 3) with
  | some (ErrTag.Z q) => if 0 ≤ q then applyPhaseFlip afterX 7 q.toNat else afterX
  | _ => afterX

/-- `np.abs(np.vdot(logical_state, decoded_state))**2` for two-component
vectors (`np.vdot` conjugates its first argument). -/
noncomputable def fidelity (α β : ℂ) (d : ℂ × ℂ) : ℝ :=
  Complex.abs (starRingEnd ℂ α * d.1 + starRingEnd ℂ β * d.2) ^ 2

/-! ## Shor-9 code (`ShorCodeCorrector`) -/

/-- `zero_terms` of `ShorCodeCorrector.encode`. -/
def shorZeroTerms : List ℕ := [0b000000000, 0b000111111, 0b111000111, 0b111111000]

/-- `one_terms` of `ShorCodeCorrector.encode`: negative entries mark a `-`
sign on the amplitude at `abs(term)`. -/
def shorOneTerms : List ℤ := [0b000000000, -0b000111111, -0b111000111, 0b111111000]

/-- `norm = 1.0 / (2 * np.sqrt(2))`. -/
noncomputable def shorNormConst : ℝ := 1 / (2 * Real.sqrt 2)

/-- `encoded[idx] += v` on an amplitude vector. -/
noncomputable def addAt (s : ℕ → ℂ) (idx : ℕ) (v : ℂ) : ℕ → ℂ :=
  fun i => if i = idx then s i + v else s i

/-- `ShorCodeCorrector.encode`: accumulate `alpha * norm` at the `zero_terms`
and `beta * norm * sign` at the `one_terms` (the first term is added directly;
the others at `abs(term)` with sign `1 if term > 0 else -1`). -/
noncomputable def shorEncode (α β : ℂ) : ℕ → ℂ :=
  (shorOneTerms.enum).foldl
    (fun s p =>
      if p.1 = 0 then addAt s p.2.toNat (β * (shorNormConst : ℂ))
      else addAt s p.2.natAbs (β * (shorNormConst : ℂ) * (if 0 < p.2 then 1 else -1)))
    (shorZeroTerms.foldl (fun s t => addAt s t (α * (shorNormConst : ℂ))) (fun _ => 0))

/-- `_get_shor_projector(0)`: diagonal `1/8` at the four `zero` states. -/
noncomputable def shorProjectorZero : Mat := fun i j =>
  if i = j ∧ i ∈ shorZeroTerms then (1 / 8 : ℂ) else 0

/-- `_get_shor_projector(1)`: diagonal `coeff * sign` with signs
`+1, -1, -1, +1` at the four states. -/
noncomputable def shorProjectorOne : Mat := fun i j =>
  if i = j then
    (if i = 0b000000000 then (1 / 8 : ℂ)
     else if i = 0b000111111 then -(1 / 8)
     else if i = 0b111000111 then -(1 / 8)
     else if i = 0b111111000 then (1 / 8)
     else 0)
  else 0

/-- `ShorCodeCorrector.decode` on a 512-amplitude physical state. -/
noncomputable def shorDecode (s : ℕ → ℂ) : ℂ × ℂ :=
  decodePair (quadForm shorProjectorZero 512 s).re (quadForm shorProjectorOne 512 s).re

/-- `SurfaceCodeCorrector.decode`: returns `[1.0, 0.0]` unconditionally
(the MWPM decoder is left unimplemented). -/
def surfaceDecode (_s : ℕ → ℂ) : ℂ × ℂ := ((1 : ℂ), (0 : ℂ))

/-! ### Structure of the tensor-built Pauli operators -/

theorem quadForm_diag (d : ℕ → ℂ) (N : ℕ) (M : Mat) (s : ℕ → ℂ)
    (hM : ∀ i < N, ∀ j < N, M i j = if i = j then d i else 0) :
    quadForm M N s = ∑ i ∈ Finset.range N, starRingEnd ℂ (s i) * (d i * s i) := by
  unfold quadForm dotc mulVec
  refine Finset.sum_congr rfl fun i hi => ?_
  have hi' := Finset.mem_range.mp hi
  have hinner : (∑ j ∈ Finset.range N, M i j * s j) = d i * s i := by
    have hterm : ∀ j ∈ Finset.range N, M i j * s j
        = if i = j then d i * s j else 0 := by
      intro j hj
      rw [hM i hi' j (Finset.mem_range.mp hj)]
      by_cases h : i = j <;> simp [h]
    rw [Finset.sum_congr rfl hterm,
      Finset.sum_ite_eq (Finset.range N) i fun j => d i * s j]
    simp [Finset.mem_range.mpr hi']
  rw [hinner]

theorem quadForm_perm (m N : ℕ) (M : Mat) (s : ℕ → ℂ)
    (hmN : ∀ i < N, i ^^^ m < N)
    (hM : ∀ i < N, ∀ j < N, M i j = if j = i ^^^ m then 1 else 0) :
    quadForm M N s = ∑ i ∈ Finset.range N, starRingEnd ℂ (s i) * s (i ^^^ m) := by
  unfold quadForm dotc mulVec
  refine Finset.sum_congr rfl fun i hi => ?_
  have hi' := Finset.mem_range.mp hi
  have hinner : (∑ j ∈ Finset.range N, M i j * s j) = s (i ^^^ m) := by
    have hterm : ∀ j ∈ Finset.range N, M i j * s j
        = if j = i ^^^ m then s j else 0 := by
      intro j hj
      rw [hM i hi' j (Finset.mem_range.mp hj)]
      by_cases h : j = i ^^^ m <;> simp [h]
    rw [Finset.sum_congr rfl hterm,
      Finset.sum_ite_eq' (Finset.range N) (i ^^^ m) fun j => s j]
    simp [Finset.mem_range.mpr (hmN i hi')]
  rw [hinner]

/-- The bit mask of a stabilizer row under the most-significant-first
`np.kron` order (row position `k` acts on index bit `len-1-k`). -/
def stabMask (bits : List ℕ) : ℕ :=
  bits.foldl (fun acc b => 2 * acc + (if b = 1 then 1 else 0)) 0

theorem stabMask_append (bs : List ℕ) (b : ℕ) :
    stabMask (bs ++ [b]) = 2 * stabMask bs + (if b = 1 then 1 else 0) := by
  unfold stabMask
  rw [List.foldl_append]
  rfl

theorem pauliOperator_append (bs : List ℕ) (b : ℕ) (single : Mat) :
    pauliOperator (bs ++ [b]) single
      = kron (pauliOperator bs single) 2 (if b = 1 then single else eye 2) := by
  unfold pauliOperator
  rw [List.foldl_append]
  rfl

theorem nat_eq_xor_iff_div_mod (i j c : ℕ) :
    j = i ^^^ c ↔ (j / 2 = i / 2 ^^^ c / 2 ∧ j % 2 = (i % 2) ^^^ (c % 2)) := by
  constructor
  · rintro rfl
    refine ⟨Nat.xor_div_two, ?_⟩
    rw [← Nat.and_one_is_mod, ← Nat.and_one_is_mod i, ← Nat.and_one_is_mod c]
    exact Nat.and_xor_distrib_right
  · rintro ⟨hdiv, hmod⟩
    have h1 : 2 * (j / 2) + j % 2 = j := Nat.div_add_mod j 2
    have h2 : 2 * ((i ^^^ c) / 2) + (i ^^^ c) % 2 = i ^^^ c := Nat.div_add_mod (i ^^^ c) 2
    have h3 : (i ^^^ c) / 2 = i / 2 ^^^ c / 2 := Nat.xor_div_two
    have h4 : (i ^^^ c) % 2 = (i % 2) ^^^ (c % 2) := by
      rw [← Nat.and_one_is_mod, ← Nat.and_one_is_mod i, ← Nat.and_one_is_mod c]
      exact Nat.and_xor_distrib_right
    omega

theorem stabMask_lt (bits : List ℕ) : stabMask bits < 2 ^ bits.length := by
  induction bits using List.reverseRecOn with
  | nil => simp [stabMask]
  | append_singleton bs b ih =>
    rw [stabMask_append, List.length_append]
    have : 2 ^ (bs.length + [b].length) = 2 * 2 ^ bs.length := by
      simp [pow_succ]
      ring
    rw [this]
    by_cases h : b = 1 <;> simp [h] <;> omega

theorem pauliOperator_X_entry (bits : List ℕ) :
    ∀ i < 2 ^ bits.length, ∀ j < 2 ^ bits.length,
      pauliOperator bits pauliX2 i j = if j = i ^^^ stabMask bits then 1 else 0 := by
  induction bits using List.reverseRecOn with
  | nil =>
    intro i hi j hj
    simp only [List.length_nil, pow_zero, Nat.lt_one_iff] at hi hj
    subst hi; subst hj
    simp [pauliOperator, eye, stabMask]
  | append_singleton bs b ih =>
    intro i hi j hj
    rw [pauliOperator_append, stabMask_append]
    have hlen : 2 ^ (bs ++ [b]).length = 2 ^ bs.length * 2 := by
      rw [List.length_append]
      simp [pow_succ]
    rw [hlen] at hi hj
    have hidiv : i / 2 < 2 ^ bs.length := (Nat.div_lt_iff_lt_mul (by norm_num)).mpr hi
    have hjdiv : j / 2 < 2 ^ bs.length := (Nat.div_lt_iff_lt_mul (by norm_num)).mpr hj
    have himod : i % 2 < 2 := Nat.mod_lt _ (by norm_num)
    have hjmod : j % 2 < 2 := Nat.mod_lt _ (by norm_num)
    unfold kron
    rw [ih (i / 2) hidiv (j / 2) hjdiv]
    set c : ℕ := if b = 1 then 1 else 0 with hc
    have hcdiv : (2 * stabMask bs + c) / 2 = stabMask bs := by
      rcases (by by_cases h : b = 1 <;> simp [hc, h] : c = 0 ∨ c = 1) with h | h <;>
        omega
    have hcmod : (2 * stabMask bs + c) % 2 = c := by
      rcases (by by_cases h : b = 1 <;> simp [hc, h] : c = 0 ∨ c = 1) with h | h <;>
        omega
    have hfac : (if b = 1 then pauliX2 else eye 2) (i % 2) (j % 2)
        = if j % 2 = (i % 2) ^^^ c then 1 else 0 := by
      by_cases hb : b = 1
      · rw [if_pos hb]
        interval_cases him : i % 2 <;> interval_cases hjm : j % 2 <;>
          simp [pauliX2, hc, hb]
      · rw [if_neg hb]
        interval_cases him : i % 2 <;> interval_cases hjm : j % 2 <;>
          simp [eye, hc, hb]
    rw [hfac]
    have hiff : j = i ^^^ (2 * stabMask bs + c)
        ↔ (j / 2 = i / 2 ^^^ stabMask bs ∧ j % 2 = (i % 2) ^^^ c) := by
      rw [nat_eq_xor_iff_div_mod, hcdiv, hcmod]
    by_cases h1 : j / 2 = i / 2 ^^^ stabMask bs <;>
      by_cases h2 : j % 2 = (i % 2) ^^^ c
    · rw [if_pos h1, if_pos h2, if_pos (hiff.mpr ⟨h1, h2⟩), one_mul]
    · rw [if_pos h1, if_neg h2, if_neg (fun h => h2 (hiff.mp h).2), mul_zero]
    · rw [if_neg h1, if_pos h2, if_neg (fun h => h1 (hiff.mp h).1), zero_mul]
    · rw [if_neg h1, if_neg h2, if_neg (fun h => h1 (hiff.mp h).1), zero_mul]

/-- The diagonal sign of the tensor-built Z-type operator:
`-1` to the number of stabilizer positions whose qubit bit of `i` is set. -/
noncomputable def zSign (bits : List ℕ) (i : ℕ) : ℂ :=
  ∏ k ∈ Finset.range bits.length,
    (if bits.getD k 0 = 1 ∧ i.testBit (bits.length - 1 - k) then (-1 : ℂ) else 1)

theorem zSign_append (bs : List ℕ) (b : ℕ) (i : ℕ) :
    zSign (bs ++ [b]) i
      = zSign bs (i / 2) * (if b = 1 ∧ i.testBit 0 then (-1 : ℂ) else 1) := by
  unfold zSign
  simp only [List.length_append, List.length_singleton]
  rw [Finset.prod_range_succ]
  congr 1
  · refine Finset.prod_congr rfl fun k hk => ?_
    have hk' := Finset.mem_range.mp hk
    have hgetD : (bs ++ [b]).getD k 0 = bs.getD k 0 := by
      rw [List.getD_eq_getElem?_getD, List.getD_eq_getElem?_getD,
        List.getElem?_append_left hk']
    have hpos : bs.length + 1 - 1 - k = (bs.length - 1 - k) + 1 := by omega
    rw [hgetD, hpos, Nat.testBit_add_one]
  · have hgetD : (bs ++ [b]).getD bs.length 0 = b := by
      rw [List.getD_eq_getElem?_getD, List.getElem?_append_right (le_refl _)]
      simp
    have hpos : bs.length + 1 - 1 - bs.length = 0 := by omega
    rw [hgetD, hpos]

theorem pauliOperator_Z_entry (bits : List ℕ) :
    ∀ i < 2 ^ bits.length, ∀ j < 2 ^ bits.length,
      pauliOperator bits pauliZ2 i j = if i = j then zSign bits i else 0 := by
  induction bits using List.reverseRecOn with
  | nil =>
    intro i hi j hj
    simp only [List.length_nil, pow_zero, Nat.lt_one_iff] at hi hj
    subst hi; subst hj
    simp [pauliOperator, eye, zSign]
  | append_singleton bs b ih =>
    intro i hi j hj
    rw [pauliOperator_append, zSign_append]
    have hlen : 2 ^ (bs ++ [b]).length = 2 ^ bs.length * 2 := by
      rw [List.length_append]
      simp [pow_succ]
    rw [hlen] at hi hj
    have hidiv : i / 2 < 2 ^ bs.length := (Nat.div_lt_iff_lt_mul (by norm_num)).mpr hi
    have hjdiv : j / 2 < 2 ^ bs.length := (Nat.div_lt_iff_lt_mul (by norm_num)).mpr hj
    unfold kron
    rw [ih (i / 2) hidiv (j / 2) hjdiv]
    have hfac : (if b = 1 then pauliZ2 else eye 2) (i % 2) (j % 2)
        = if i % 2 = j % 2 then (if b = 1 ∧ i.testBit 0 then (-1 : ℂ) else 1) else 0 := by
      have htb : i.testBit 0 = decide (i % 2 = 1) := Nat.testBit_zero i
      by_cases hb : b = 1
      · rw [if_pos hb]
        have himod : i % 2 < 2 := Nat.mod_lt _ (by norm_num)
        have hjmod : j % 2 < 2 := Nat.mod_lt _ (by norm_num)
        interval_cases him : i % 2 <;> interval_cases hjm : j % 2 <;>
          simp [pauliZ2, hb, htb, him, hjm]
      · rw [if_neg hb]
        have himod : i % 2 < 2 := Nat.mod_lt _ (by norm_num)
        have hjmod : j % 2 < 2 := Nat.mod_lt _ (by norm_num)
        interval_cases him : i % 2 <;> interval_cases hjm : j % 2 <;>
          simp [eye, hb]
    rw [hfac]
    have hiff : i = j ↔ (i / 2 = j / 2 ∧ i % 2 = j % 2) := by omega
    by_cases h1 : i / 2 = j / 2 <;> by_cases h2 : i % 2 = j % 2
    · rw [if_pos h1, if_pos h2, if_pos (hiff.mpr ⟨h1, h2⟩)]
    · rw [if_pos h1, if_neg h2, if_neg (fun h => h2 (hiff.mp h).2), mul_zero]
    · rw [if_neg h1, if_pos h2, if_neg (fun h => h1 (hiff.mp h).1), zero_mul]
    · rw [if_neg h1, if_neg h2, if_neg (fun h => h1 (hiff.mp h).1), zero_mul]

theorem measurePauli_X_eq (s : ℕ → ℂ) (bits : List ℕ) :
    measurePauliOperator s bits pauliX2
      = (∑ i ∈ Finset.range (2 ^ bits.length),
          starRingEnd ℂ (s i) * s (i ^^^ stabMask bits)).re := by
  unfold measurePauliOperator
  rw [quadForm_perm (stabMask bits) (2 ^ bits.length) _ s
    (fun i hi => Nat.xor_lt_two_pow hi (stabMask_lt bits))
    (pauliOperator_X_entry bits)]

theorem measurePauli_Z_eq (s : ℕ → ℂ) (bits : List ℕ) :
    measurePauliOperator s bits pauliZ2
      = (∑ i ∈ Finset.range (2 ^ bits.length),
          starRingEnd ℂ (s i) * (zSign bits i * s i)).re := by
  unfold measurePauliOperator
  rw [quadForm_diag (zSign bits) (2 ^ bits.length) _ s (pauliOperator_Z_entry bits)]

/-! ### Evaluation of measurements on indicator states -/

/-- A state with constant real amplitude `r` on a support list `A` — the shape
of the concrete encoded/flipped states appearing in the end-to-end claims. -/
noncomputable def indState (A : List ℕ) (r : ℝ) : ℕ → ℂ := fun i =>
  if i ∈ A then ((r : ℝ) : ℂ) else 0

theorem measureX_indState (A : List ℕ) (r : ℝ) (bits : List ℕ) :
    measurePauliOperator (indState A r) bits pauliX2
      = (((Finset.range (2 ^ bits.length)).filter
            (fun i => i ∈ A ∧ i ^^^ stabMask bits ∈ A)).card : ℝ) * r ^ 2 := by
  rw [measurePauli_X_eq]
  have hterm : ∀ i ∈ Finset.range (2 ^ bits.length),
      starRingEnd ℂ (indState A r i) * indState A r (i ^^^ stabMask bits)
        = if i ∈ A ∧ i ^^^ stabMask bits ∈ A then ((r : ℂ)) ^ 2 else 0 := by
    intro i _
    unfold indState
    by_cases h1 : i ∈ A <;> by_cases h2 : i ^^^ stabMask bits ∈ A <;>
      simp [h1, h2, Complex.conj_ofReal, sq]
  rw [Finset.sum_congr rfl hterm, ← Finset.sum_filter, Finset.sum_const, nsmul_eq_mul]
  norm_cast

/-- The number of stabilizer positions whose qubit bit of `i` is set (the
parity of this count is the sign of the Z-type operator's diagonal at `i`). -/
def zCount (bits : List ℕ) (i : ℕ) : ℕ :=
  ∑ k ∈ Finset.range bits.length,
    if bits.getD k 0 = 1 ∧ i.testBit (bits.length - 1 - k) then 1 else 0

theorem prod_ite_neg_one (n : ℕ) (p : ℕ → Prop) [DecidablePred p] :
    (∏ k ∈ Finset.range n, (if p k then (-1 : ℂ) else 1))
      = (-1 : ℂ) ^ (∑ k ∈ Finset.range n, if p k then 1 else 0) := by
  induction n with
  | zero => simp
  | succ n ih =>
    rw [Finset.prod_range_succ, Finset.sum_range_succ, ih, pow_add]
    by_cases h : p n <;> simp [h]

theorem zSign_eq_pow (bits : List ℕ) (i : ℕ) :
    zSign bits i = (-1 : ℂ) ^ zCount bits i :=
  prod_ite_neg_one _ _

theorem measureZ_indState (A : List ℕ) (r : ℝ) (bits : List ℕ) :
    measurePauliOperator (indState A r) bits pauliZ2
      = ((((Finset.range (2 ^ bits.length)).filter
            (fun i => i ∈ A ∧ zCount bits i % 2 = 0)).card : ℝ)
          - (((Finset.range (2 ^ bits.length)).filter
            (fun i => i ∈ A ∧ zCount bits i % 2 = 1)).card : ℝ)) * r ^ 2 := by
  rw [measurePauli_Z_eq]
  have hterm : ∀ i ∈ Finset.range (2 ^ bits.length),
      starRingEnd ℂ (indState A r i) * (zSign bits i * indState A r i)
        = (if i ∈ A ∧ zCount bits i % 2 = 0 then ((r : ℂ)) ^ 2 else 0)
          + (if i ∈ A ∧ zCount bits i % 2 = 1 then -((r : ℂ)) ^ 2 else 0) := by
    intro i _
    unfold indState
    rw [zSign_eq_pow]
    by_cases h1 : i ∈ A
    · rcases Nat.even_or_odd (zCount bits i) with he | ho
      · have h2 : zCount bits i % 2 = 0 := Nat.even_iff.mp he
        have h3 : ¬ (zCount bits i % 2 = 1) := by omega
        rw [he.neg_one_pow]
        simp [h1, h2, h3, Complex.conj_ofReal, sq]
      · have h2 : zCount bits i % 2 = 1 := Nat.odd_iff.mp ho
        have h3 : ¬ (zCount bits i % 2 = 0) := by omega
        rw [ho.neg_one_pow]
        simp [h1, h2, h3, Complex.conj_ofReal, sq]
    · simp [h1]
  rw [Finset.sum_congr rfl hterm, Finset.sum_add_distrib,
    ← Finset.sum_filter, ← Finset.sum_filter, Finset.sum_const, Finset.sum_const,
    nsmul_eq_mul, nsmul_eq_mul]
  have hcast : ∀ a b : ℕ,
      (((a : ℕ) : ℂ) * ((r : ℂ)) ^ 2 + ((b : ℕ) : ℂ) * (-((r : ℂ)) ^ 2)).re
        = ((a : ℝ) - (b : ℝ)) * r ^ 2 := by
    intro a b
    have hval : ((a : ℂ) * ((r : ℂ)) ^ 2 + (b : ℂ) * (-((r : ℂ)) ^ 2))
        = ((((a : ℝ) - (b : ℝ)) * r ^ 2 : ℝ) : ℂ) := by
      push_cast
      ring
    rw [hval, Complex.ofReal_re]
  exact hcast _ _

/-! ### Evaluation of the decode projectors -/

theorem steaneProjector_diag (cws : List ℕ) (i j : ℕ) :
    steaneProjector cws i j
      = if i = j then (if i ∈ cws then (1 / 8 : ℂ) else 0) else 0 := by
  unfold steaneProjector
  by_cases h1 : i = j <;> by_cases h2 : i ∈ cws <;> simp [h1, h2]

theorem quadForm_steaneProjector_eval (cws : List ℕ) (s : ℕ → ℂ) (v : ℂ)
    (hnd : cws.Nodup) (hlt : ∀ c ∈ cws, c < 128) (hv : ∀ c ∈ cws, s c = v) :
    quadForm (steaneProjector cws) 128 s
      = (cws.length : ℂ) * (starRingEnd ℂ v * v) / 8 := by
  rw [quadForm_diag (fun i => if i ∈ cws then (1 / 8 : ℂ) else 0) 128 _ s
    (fun i _ j _ => steaneProjector_diag cws i j)]
  have hsub : cws.toFinset ⊆ Finset.range 128 := fun c hc =>
    Finset.mem_range.mpr (hlt c (List.mem_toFinset.mp hc))
  have h0 : ∀ i ∈ Finset.range 128, i ∉ cws.toFinset →
      starRingEnd ℂ (s i) * ((if i ∈ cws then (1 / 8 : ℂ) else 0) * s i) = 0 := by
    intro i _ hi
    rw [if_neg (fun h => hi (List.mem_toFinset.mpr h))]
    ring
  rw [← Finset.sum_subset hsub h0]
  have hval : ∀ i ∈ cws.toFinset,
      starRingEnd ℂ (s i) * ((if i ∈ cws then (1 / 8 : ℂ) else 0) * s i)
        = starRingEnd ℂ v * ((1 / 8 : ℂ) * v) := by
    intro i hi
    have hic := List.mem_toFinset.mp hi
    rw [if_pos hic, hv i hic]
  rw [Finset.sum_congr rfl hval, Finset.sum_const, nsmul_eq_mul, List.card_toFinset,
    hnd.dedup]
  ring

/-- A state that vanishes on every codeword has zero projection. -/
theorem quadForm_steaneProjector_zero (cws : List ℕ) (s : ℕ → ℂ)
    (h : ∀ c ∈ cws, s c = 0) :
    quadForm (steaneProjector cws) 128 s = 0 := by
  rw [quadForm_diag (fun i => if i ∈ cws then (1 / 8 : ℂ) else 0) 128 _ s
    (fun i _ j _ => steaneProjector_diag cws i j)]
  refine Finset.sum_eq_zero fun i _ => ?_
  by_cases hic : i ∈ cws
  · rw [h i hic]
    ring
  · rw [if_neg hic]
    ring

/-! ### decodePair facts -/

theorem decodePair_pos_zero (zsq : ℝ) (h : 0 < zsq) : decodePair zsq 0 = (1, 0) := by
  unfold decodePair
  have hguard : ¬ (zsq < 0 ∨ (0 : ℝ) < 0) := by
    push_neg
    constructor <;> linarith
  rw [if_neg hguard]
  have hz : Real.sqrt zsq > 0 := Real.sqrt_pos.mpr h
  have hzero : Real.sqrt 0 = 0 := Real.sqrt_zero
  have harg : Real.sqrt zsq ^ 2 + Real.sqrt (0 : ℝ) ^ 2 = Real.sqrt zsq ^ 2 := by
    rw [hzero]
    ring
  have hnorm : Real.sqrt (Real.sqrt zsq ^ 2 + Real.sqrt (0 : ℝ) ^ 2) = Real.sqrt zsq := by
    rw [harg, Real.sqrt_sq (le_of_lt hz)]
  rw [if_pos (by rw [hnorm]; exact hz)]
  rw [hnorm, hzero, div_self (ne_of_gt hz)]
  norm_num

theorem decodePair_of_sq (a b : ℝ) (ha : 0 ≤ a) (hb : 0 ≤ b) (hab : 0 < a ^ 2 + b ^ 2) :
    decodePair (a ^ 2) (b ^ 2)
      = (((a / Real.sqrt (a ^ 2 + b ^ 2) : ℝ) : ℂ),
         ((b / Real.sqrt (a ^ 2 + b ^ 2) : ℝ) : ℂ)) := by
  unfold decodePair
  have hguard : ¬ (a ^ 2 < 0 ∨ b ^ 2 < 0) := by
    push_neg
    constructor <;> positivity
  rw [if_neg hguard]
  have hsa : Real.sqrt (a ^ 2) = a := Real.sqrt_sq ha
  have hsb : Real.sqrt (b ^ 2) = b := Real.sqrt_sq hb
  rw [hsa, hsb, if_pos (Real.sqrt_pos.mpr hab)]

/-! ### Pointwise form of the Shor encoding -/

theorem shorEncode_eval (α β : ℂ) (i : ℕ) :
    shorEncode α β i
      = if i = 0 then (α + β) * (shorNormConst : ℂ)
        else if i = 63 then (α - β) * (shorNormConst : ℂ)
        else if i = 455 then (α - β) * (shorNormConst : ℂ)
        else if i = 504 then (α + β) * (shorNormConst : ℂ)
        else 0 := by
  unfold shorEncode shorZeroTerms shorOneTerms
  by_cases h0 : i = 0 <;> by_cases h63 : i = 63 <;> by_cases h455 : i = 455 <;>
    by_cases h504 : i = 504 <;>
      simp_all [addAt, List.enum, List.enumFrom] <;> ring

/-! ## C10: decode outputs are real, nonnegative, and normalized -/

theorem decodePair_props (zsq osq : ℝ) :
    (decodePair zsq osq).1.im = 0 ∧ (decodePair zsq osq).2.im = 0 ∧
      0 ≤ (decodePair zsq osq).1.re ∧ 0 ≤ (decodePair zsq osq).2.re ∧
      (decodePair zsq osq).1.re ^ 2 + (decodePair zsq osq).2.re ^ 2 = 1 := by
  unfold decodePair
  by_cases hneg : zsq < 0 ∨ osq < 0
  · rw [if_pos hneg]
    norm_num
  · rw [if_neg hneg]
    by_cases hpos : 0 < Real.sqrt (Real.sqrt zsq ^ 2 + Real.sqrt osq ^ 2)
    · rw [if_pos hpos]
      simp only [Complex.ofReal_im, Complex.ofReal_re]
      have harg : (0 : ℝ) ≤ Real.sqrt zsq ^ 2 + Real.sqrt osq ^ 2 := by positivity
      have hn2 : Real.sqrt (Real.sqrt zsq ^ 2 + Real.sqrt osq ^ 2) ^ 2
          = Real.sqrt zsq ^ 2 + Real.sqrt osq ^ 2 := Real.sq_sqrt harg
      have hnne : Real.sqrt (Real.sqrt zsq ^ 2 + Real.sqrt osq ^ 2) ≠ 0 := ne_of_gt hpos
      refine ⟨trivial, trivial, ?_, ?_, ?_⟩
      · exact div_nonneg (Real.sqrt_nonneg _) (le_of_lt hpos)
      · exact div_nonneg (Real.sqrt_nonneg _) (le_of_lt hpos)
      · rw [div_pow, div_pow, div_add_div_same, hn2,
          div_self (ne_of_gt (Real.sqrt_pos.mp hpos))]
    · rw [if_neg hpos]
      norm_num

/-- C10: for every input physical state, `decode` of each concrete code
(Steane-7, Shor-9, Surface) returns a two-component logical state whose
entries are real and nonnegative with Euclidean norm 1 — so no relative phase
between the logical amplitudes ever survives decoding. -/
theorem decode_output_real_nonneg_unit (s : ℕ → ℂ) :
    ((steaneDecode s).1.im = 0 ∧ (steaneDecode s).2.im = 0 ∧
      0 ≤ (steaneDecode s).1.re ∧ 0 ≤ (steaneDecode s).2.re ∧
      (steaneDecode s).1.re ^ 2 + (steaneDecode s).2.re ^ 2 = 1) ∧
    ((shorDecode s).1.im = 0 ∧ (shorDecode s).2.im = 0 ∧
      0 ≤ (shorDecode s).1.re ∧ 0 ≤ (shorDecode s).2.re ∧
      (shorDecode s).1.re ^ 2 + (shorDecode s).2.re ^ 2 = 1) ∧
    ((surfaceDecode s).1.im = 0 ∧ (surfaceDecode s).2.im = 0 ∧
      0 ≤ (surfaceDecode s).1.re ∧ 0 ≤ (surfaceDecode s).2.re ∧
      (surfaceDecode s).1.re ^ 2 + (surfaceDecode s).2.re ^ 2 = 1) := by
  refine ⟨decodePair_props _ _, decodePair_props _ _, ?_⟩
  unfold surfaceDecode
  norm_num

/-! ## C6: the Shor-9 encoding is not normalized -/

theorem shorNormConst_sq : shorNormConst ^ 2 = 1 / 8 := by
  unfold shorNormConst
  rw [div_pow, mul_pow, Real.sq_sqrt (by norm_num : (0 : ℝ) ≤ 2)]
  norm_num

theorem shorEncode_normSqVec (α β : ℂ) :
    normSqVec (shorEncode α β) 512
      = (Complex.normSq α + Complex.normSq β) / 2 := by
  unfold normSqVec
  have hsub : ({0, 63, 455, 504} : Finset ℕ) ⊆ Finset.range 512 := by
    intro i hi
    simp only [Finset.mem_insert, Finset.mem_singleton] at hi
    rcases hi with rfl | rfl | rfl | rfl <;> simp [Finset.mem_range]
  have h0 : ∀ i ∈ Finset.range 512, i ∉ ({0, 63, 455, 504} : Finset ℕ) →
      Complex.normSq (shorEncode α β i) = 0 := by
    intro i _ hi
    simp only [Finset.mem_insert, Finset.mem_singleton] at hi
    push_neg at hi
    rw [shorEncode_eval, if_neg hi.1, if_neg hi.2.1, if_neg hi.2.2.1, if_neg hi.2.2.2]
    simp
  rw [← Finset.sum_subset hsub h0]
  have hs0 : shorEncode α β 0 = (α + β) * (shorNormConst : ℂ) := by
    rw [shorEncode_eval]; norm_num
  have hs63 : shorEncode α β 63 = (α - β) * (shorNormConst : ℂ) := by
    rw [shorEncode_eval]; norm_num
  have hs455 : shorEncode α β 455 = (α - β) * (shorNormConst : ℂ) := by
    rw [shorEncode_eval]; norm_num
  have hs504 : shorEncode α β 504 = (α + β) * (shorNormConst : ℂ) := by
    rw [shorEncode_eval]; norm_num
  rw [show ({0, 63, 455, 504} : Finset ℕ).sum (fun i => Complex.normSq (shorEncode α β i))
      = Complex.normSq (shorEncode α β 0) + Complex.normSq (shorEncode α β 63)
        + Complex.normSq (shorEncode α β 455) + Complex.normSq (shorEncode α β 504) by
    rw [Finset.sum_insert (by decide), Finset.sum_insert (by decide),
      Finset.sum_insert (by decide), Finset.sum_singleton]
    ring]
  rw [hs0, hs63, hs455, hs504]
  simp only [Complex.normSq_mul, Complex.normSq_ofReal]
  have hc : shorNormConst * shorNormConst = 1 / 8 := by
    have h8 := shorNormConst_sq
    nlinarith [h8]
  rw [hc, Complex.normSq_add, Complex.normSq_sub]
  ring

/-- C6 (counterexample): the Shor-9 encoding of the normalized logical state
`[1, 0]` has squared norm `1/2`, hence Euclidean norm `1/√2 ≠ 1`. -/
theorem shor_encode_norm_not_one :
    normSqVec (shorEncode 1 0) 512 = 1 / 2 ∧ vecNorm (shorEncode 1 0) 512 ≠ 1 := by
  have h : normSqVec (shorEncode 1 0) 512 = 1 / 2 := by
    rw [shorEncode_normSqVec]
    simp
  refine ⟨h, ?_⟩
  unfold vecNorm
  rw [h]
  have hlt : Real.sqrt (1 / 2) < 1 := by
    have h1 : Real.sqrt (1 / 2) < Real.sqrt 1 :=
      Real.sqrt_lt_sqrt (by norm_num) (by norm_num)
    rwa [Real.sqrt_one] at h1
  exact ne_of_lt hlt

/-- C6 (amended): for every normalized logical state, the physical state
returned by Shor-9 `encode` has squared Euclidean norm exactly `1/2`
(norm `√(1/2) ≈ 0.707`), not 1. -/
theorem shor_encode_norm_half (α β : ℂ)
    (h : Complex.normSq α + Complex.normSq β = 1) :
    normSqVec (shorEncode α β) 512 = 1 / 2 ∧
      vecNorm (shorEncode α β) 512 = Real.sqrt (1 / 2) := by
  have h1 : normSqVec (shorEncode α β) 512 = 1 / 2 := by
    rw [shorEncode_normSqVec, h]
  exact ⟨h1, by unfold vecNorm; rw [h1]⟩

/-- Witness for C6 (amended) at the basis state `[1, 0]`. -/
theorem shor_encode_norm_half_witness :
    (Complex.normSq 1 + Complex.normSq 0 = 1) ∧
      (normSqVec (shorEncode 1 0) 512 = 1 / 2 ∧
        vecNorm (shorEncode 1 0) 512 = Real.sqrt (1 / 2)) :=
  ⟨by simp, shor_encode_norm_half 1 0 (by simp)⟩

/-! ## C3: encode-then-decode round trip -/

theorem steaneCW0_nodup : steaneZeroCodewords.Nodup := by decide

theorem steaneCW1_nodup : steaneOneCodewords.Nodup := by decide

theorem steaneCW0_lt : ∀ c ∈ steaneZeroCodewords, c < 128 := by decide

theorem steaneCW1_lt : ∀ c ∈ steaneOneCodewords, c < 128 := by decide

theorem steaneCW_disjoint01 : ∀ c ∈ steaneZeroCodewords, c ∉ steaneOneCodewords := by
  decide

theorem steaneCW_disjoint10 : ∀ c ∈ steaneOneCodewords, c ∉ steaneZeroCodewords := by
  decide

theorem steaneEncode_CW0 (α β : ℂ) :
    ∀ c ∈ steaneZeroCodewords,
      steaneEncode α β c = α * ((1 / Real.sqrt 8 : ℝ) : ℂ) := by
  intro c hc
  unfold steaneEncode
  rw [if_pos hc, if_neg (steaneCW_disjoint01 c hc)]
  ring

theorem steaneEncode_CW1 (α β : ℂ) :
    ∀ c ∈ steaneOneCodewords,
      steaneEncode α β c = β * ((1 / Real.sqrt 8 : ℝ) : ℂ) := by
  intro c hc
  unfold steaneEncode
  rw [if_neg (steaneCW_disjoint10 c hc), if_pos hc]
  ring

theorem steaneEncode_quadForm_zero (α β : ℂ) :
    quadForm (steaneProjector steaneZeroCodewords) 128 (steaneEncode α β)
      = starRingEnd ℂ (α * ((1 / Real.sqrt 8 : ℝ) : ℂ))
          * (α * ((1 / Real.sqrt 8 : ℝ) : ℂ)) := by
  rw [quadForm_steaneProjector_eval steaneZeroCodewords _
    (α * ((1 / Real.sqrt 8 : ℝ) : ℂ)) steaneCW0_nodup steaneCW0_lt
    (steaneEncode_CW0 α β)]
  have hlen : (steaneZeroCodewords.length : ℂ) = 8 := by norm_num [steaneZeroCodewords]
  rw [hlen]
  ring

theorem steaneEncode_quadForm_one (α β : ℂ) :
    quadForm (steaneProjector steaneOneCodewords) 128 (steaneEncode α β)
      = starRingEnd ℂ (β * ((1 / Real.sqrt 8 : ℝ) : ℂ))
          * (β * ((1 / Real.sqrt 8 : ℝ) : ℂ)) := by
  rw [quadForm_steaneProjector_eval steaneOneCodewords _
    (β * ((1 / Real.sqrt 8 : ℝ) : ℂ)) steaneCW1_nodup steaneCW1_lt
    (steaneEncode_CW1 α β)]
  have hlen : (steaneOneCodewords.length : ℂ) = 8 := by norm_num [steaneOneCodewords]
  rw [hlen]
  ring

theorem conj_mul_ofReal (x : ℝ) :
    starRingEnd ℂ ((x : ℝ) : ℂ) * ((x : ℝ) : ℂ) = ((x ^ 2 : ℝ) : ℂ) := by
  rw [Complex.conj_ofReal]
  push_cast
  ring

theorem steaneDecode_encode_real (α β : ℝ) (ha : 0 ≤ α) (hb : 0 ≤ β)
    (hab : α ^ 2 + β ^ 2 = 1) :
    steaneDecode (steaneEncode (α : ℂ) (β : ℂ)) = ((α : ℂ), (β : ℂ)) := by
  have hr : (0 : ℝ) < 1 / Real.sqrt 8 := by positivity
  have hsq : (1 / Real.sqrt 8 : ℝ) ^ 2 = 1 / 8 := by
    rw [div_pow, Real.sq_sqrt (by norm_num : (0 : ℝ) ≤ 8)]
    norm_num
  have hz : (quadForm (steaneProjector steaneZeroCodewords) 128
      (steaneEncode (α : ℂ) (β : ℂ))).re = (α * (1 / Real.sqrt 8)) ^ 2 := by
    rw [steaneEncode_quadForm_zero]
    rw [show ((α : ℂ) * ((1 / Real.sqrt 8 : ℝ) : ℂ)) = (((α * (1 / Real.sqrt 8) : ℝ)) : ℂ)
      from by push_cast; ring]
    rw [conj_mul_ofReal, Complex.ofReal_re]
  have ho : (quadForm (steaneProjector steaneOneCodewords) 128
      (steaneEncode (α : ℂ) (β : ℂ))).re = (β * (1 / Real.sqrt 8)) ^ 2 := by
    rw [steaneEncode_quadForm_one]
    rw [show ((β : ℂ) * ((1 / Real.sqrt 8 : ℝ) : ℂ)) = (((β * (1 / Real.sqrt 8) : ℝ)) : ℂ)
      from by push_cast; ring]
    rw [conj_mul_ofReal, Complex.ofReal_re]
  unfold steaneDecode
  rw [hz, ho]
  have hsum : (α * (1 / Real.sqrt 8)) ^ 2 + (β * (1 / Real.sqrt 8)) ^ 2
      = (1 / Real.sqrt 8) ^ 2 := by
    have : (α * (1 / Real.sqrt 8)) ^ 2 + (β * (1 / Real.sqrt 8)) ^ 2
        = (α ^ 2 + β ^ 2) * (1 / Real.sqrt 8) ^ 2 := by ring
    rw [this, hab, one_mul]
  rw [decodePair_of_sq (α * (1 / Real.sqrt 8)) (β * (1 / Real.sqrt 8))
    (by positivity) (by positivity) (by rw [hsum]; positivity)]
  rw [hsum, Real.sqrt_sq (le_of_lt hr)]
  rw [mul_div_assoc, mul_div_assoc, div_self (ne_of_gt hr), mul_one, mul_one]

/-- C3 (amended): for every normalized logical state with nonnegative real
amplitudes, Steane-7 encode-then-decode returns the state exactly, so the
fidelity is 1.  (For Shor-9, and for amplitudes with signs or phases, the
round trip fails — see the counterexample.) -/
theorem steane_encode_decode_fidelity (α β : ℝ) (ha : 0 ≤ α) (hb : 0 ≤ β)
    (hab : α ^ 2 + β ^ 2 = 1) :
    fidelity (α : ℂ) (β : ℂ) (steaneDecode (steaneEncode (α : ℂ) (β : ℂ))) = 1 := by
  rw [steaneDecode_encode_real α β ha hb hab]
  unfold fidelity
  rw [Complex.conj_ofReal, Complex.conj_ofReal]
  rw [show ((α : ℂ) * (α : ℂ) + (β : ℂ) * (β : ℂ)) = (((α ^ 2 + β ^ 2 : ℝ)) : ℂ)
    from by push_cast; ring]
  rw [hab]
  simp

/-- Witness for C3 (amended) at the basis state `[1, 0]`. -/
theorem steane_encode_decode_fidelity_witness :
    ((0 : ℝ) ≤ 1 ∧ (0 : ℝ) ≤ 0 ∧ (1 : ℝ) ^ 2 + (0 : ℝ) ^ 2 = 1) ∧
      fidelity ((1 : ℝ) : ℂ) ((0 : ℝ) : ℂ)
        (steaneDecode (steaneEncode ((1 : ℝ) : ℂ) ((0 : ℝ) : ℂ))) = 1 :=
  ⟨⟨by norm_num, by norm_num, by norm_num⟩,
    steane_encode_decode_fidelity 1 0 (by norm_num) (by norm_num) (by norm_num)⟩

theorem shorProjectorZero_diag (i j : ℕ) :
    shorProjectorZero i j
      = if i = j then (if i ∈ shorZeroTerms then (1 / 8 : ℂ) else 0) else 0 := by
  unfold shorProjectorZero
  by_cases h1 : i = j <;> by_cases h2 : i ∈ shorZeroTerms <;> simp [h1, h2]

theorem quadForm_shorProjZero_supported (s : ℕ → ℂ) :
    quadForm shorProjectorZero 512 s
      = (starRingEnd ℂ (s 0) * s 0 + starRingEnd ℂ (s 63) * s 63
          + starRingEnd ℂ (s 455) * s 455 + starRingEnd ℂ (s 504) * s 504) / 8 := by
  rw [quadForm_diag (fun i => if i ∈ shorZeroTerms then (1 / 8 : ℂ) else 0) 512
    shorProjectorZero s (fun i _ j _ => shorProjectorZero_diag i j)]
  have hsub : ({0, 63, 455, 504} : Finset ℕ) ⊆ Finset.range 512 := by
    intro i hi
    simp only [Finset.mem_insert, Finset.mem_singleton] at hi
    rcases hi with rfl | rfl | rfl | rfl <;> simp [Finset.mem_range]
  have h0 : ∀ i ∈ Finset.range 512, i ∉ ({0, 63, 455, 504} : Finset ℕ) →
      starRingEnd ℂ (s i) * ((if i ∈ shorZeroTerms then (1 / 8 : ℂ) else 0) * s i)
        = 0 := by
    intro i _ hi
    simp only [Finset.mem_insert, Finset.mem_singleton] at hi
    push_neg at hi
    have hmem : i ∉ shorZeroTerms := by
      unfold shorZeroTerms
      simp only [List.mem_cons, List.not_mem_nil, or_false]
      push_neg
      exact ⟨hi.1, hi.2.1, hi.2.2.1, hi.2.2.2⟩
    rw [if_neg hmem]
    ring
  rw [← Finset.sum_subset hsub h0]
  rw [Finset.sum_insert (by decide), Finset.sum_insert (by decide),
    Finset.sum_insert (by decide), Finset.sum_singleton]
  have m0 : (0 : ℕ) ∈ shorZeroTerms := by decide
  have m63 : (63 : ℕ) ∈ shorZeroTerms := by decide
  have m455 : (455 : ℕ) ∈ shorZeroTerms := by decide
  have m504 : (504 : ℕ) ∈ shorZeroTerms := by decide
  rw [if_pos m0, if_pos m63, if_pos m455, if_pos m504]
  ring

theorem quadForm_shorProjOne_supported (s : ℕ → ℂ) :
    quadForm shorProjectorOne 512 s
      = (starRingEnd ℂ (s 0) * s 0 - starRingEnd ℂ (s 63) * s 63
          - starRingEnd ℂ (s 455) * s 455 + starRingEnd ℂ (s 504) * s 504) / 8 := by
  rw [quadForm_diag
    (fun i =>
      if i = 0b000000000 then (1 / 8 : ℂ)
      else if i = 0b000111111 then -(1 / 8)
      else if i = 0b111000111 then -(1 / 8)
      else if i = 0b111111000 then (1 / 8)
      else 0) 512 shorProjectorOne s (fun i _ j _ => rfl)]
  have hsub : ({0, 63, 455, 504} : Finset ℕ) ⊆ Finset.range 512 := by
    intro i hi
    simp only [Finset.mem_insert, Finset.mem_singleton] at hi
    rcases hi with rfl | rfl | rfl | rfl <;> simp [Finset.mem_range]
  have h0 : ∀ i ∈ Finset.range 512, i ∉ ({0, 63, 455, 504} : Finset ℕ) →
      starRingEnd ℂ (s i) *
        ((if i = 0b000000000 then (1 / 8 : ℂ)
          else if i = 0b000111111 then -(1 / 8)
          else if i = 0b111000111 then -(1 / 8)
          else if i = 0b111111000 then (1 / 8)
          else 0) * s i) = 0 := by
    intro i _ hi
    simp only [Finset.mem_insert, Finset.mem_singleton] at hi
    push_neg at hi
    rw [if_neg hi.1, if_neg hi.2.1, if_neg hi.2.2.1, if_neg hi.2.2.2]
    ring
  rw [← Finset.sum_subset hsub h0]
  rw [Finset.sum_insert (by decide), Finset.sum_insert (by decide),
    Finset.sum_insert (by decide), Finset.sum_singleton]
  norm_num
  ring

theorem re_add4_div8 (a b c d : ℝ) :
    ((((a : ℝ) : ℂ) + ((b : ℝ) : ℂ) + ((c : ℝ) : ℂ) + ((d : ℝ) : ℂ)) / 8).re
      = (a + b + c + d) / 8 := by
  rw [show ((((a : ℝ) : ℂ) + ((b : ℝ) : ℂ) + ((c : ℝ) : ℂ) + ((d : ℝ) : ℂ)) / 8)
      = (((a + b + c + d) / 8 : ℝ) : ℂ) from by push_cast; ring]
  exact Complex.ofReal_re _

theorem re_addsub4_div8 (a b c d : ℝ) :
    ((((a : ℝ) : ℂ) - ((b : ℝ) : ℂ) - ((c : ℝ) : ℂ) + ((d : ℝ) : ℂ)) / 8).re
      = (a - b - c + d) / 8 := by
  rw [show ((((a : ℝ) : ℂ) - ((b : ℝ) : ℂ) - ((c : ℝ) : ℂ) + ((d : ℝ) : ℂ)) / 8)
      = (((a - b - c + d) / 8 : ℝ) : ℂ) from by push_cast; ring]
  exact Complex.ofReal_re _

theorem fidelity_real_pair (a b x y : ℝ) :
    fidelity ((a : ℝ) : ℂ) ((b : ℝ) : ℂ) (((x : ℝ) : ℂ), ((y : ℝ) : ℂ))
      = (a * x + b * y) ^ 2 := by
  unfold fidelity
  rw [Complex.conj_ofReal, Complex.conj_ofReal]
  rw [show (((a : ℝ) : ℂ) * ((x : ℝ) : ℂ) + ((b : ℝ) : ℂ) * ((y : ℝ) : ℂ))
      = (((a * x + b * y : ℝ)) : ℂ) from by push_cast; ring]
  rw [Complex.abs_ofReal]
  exact sq_abs _

/-- C3 (counterexample): encode-then-decode does *not* return every normalized
logical state with fidelity 1.  For Shor-9, decoding the encoding of `[0, 1]`
yields `[1, 0]`, fidelity 0; for Steane-7, the state `[√2/2, -√2/2]` decodes
with fidelity 0 (decode keeps only nonnegative amplitudes, erasing the sign). -/
theorem encode_decode_roundtrip_fails :
    fidelity 0 1 (shorDecode (shorEncode 0 1)) = 0 ∧
      fidelity ((Real.sqrt 2 / 2 : ℝ) : ℂ) ((-(Real.sqrt 2 / 2) : ℝ) : ℂ)
        (steaneDecode (steaneEncode ((Real.sqrt 2 / 2 : ℝ) : ℂ)
          ((-(Real.sqrt 2 / 2) : ℝ) : ℂ))) = 0 := by
  constructor
  · -- Shor-9 on the logical state [0, 1]
    have hs0 : shorEncode 0 1 0 = ((shorNormConst : ℝ) : ℂ) := by
      rw [shorEncode_eval]
      norm_num
    have hs63 : shorEncode 0 1 63 = ((-shorNormConst : ℝ) : ℂ) := by
      rw [shorEncode_eval]
      push_cast
      norm_num
    have hs455 : shorEncode 0 1 455 = ((-shorNormConst : ℝ) : ℂ) := by
      rw [shorEncode_eval]
      push_cast
      norm_num
    have hs504 : shorEncode 0 1 504 = ((shorNormConst : ℝ) : ℂ) := by
      rw [shorEncode_eval]
      norm_num
    have hz : (quadForm shorProjectorZero 512 (shorEncode 0 1)).re = 1 / 16 := by
      rw [quadForm_shorProjZero_supported, hs0, hs63, hs455, hs504]
      simp only [conj_mul_ofReal]
      rw [re_add4_div8]
      have h8 := shorNormConst_sq
      nlinarith [h8]
    have ho : (quadForm shorProjectorOne 512 (shorEncode 0 1)).re = 0 := by
      rw [quadForm_shorProjOne_supported, hs0, hs63, hs455, hs504]
      simp only [conj_mul_ofReal]
      rw [re_addsub4_div8]
      ring_nf
    unfold shorDecode
    rw [hz, ho, decodePair_pos_zero (1 / 16) (by norm_num)]
    unfold fidelity
    simp
  · -- Steane-7 on the logical state [√2/2, -√2/2]
    have hr : (0 : ℝ) < 1 / Real.sqrt 8 := by positivity
    set α : ℝ := Real.sqrt 2 / 2 with hα
    have hαpos : 0 < α := by rw [hα]; positivity
    have hz : (quadForm (steaneProjector steaneZeroCodewords) 128
        (steaneEncode ((α : ℝ) : ℂ) ((-α : ℝ) : ℂ))).re
          = (α * (1 / Real.sqrt 8)) ^ 2 := by
      rw [steaneEncode_quadForm_zero]
      rw [show (((α : ℝ) : ℂ) * ((1 / Real.sqrt 8 : ℝ) : ℂ))
          = (((α * (1 / Real.sqrt 8) : ℝ)) : ℂ) from by push_cast; ring]
      rw [conj_mul_ofReal, Complex.ofReal_re]
    have ho : (quadForm (steaneProjector steaneOneCodewords) 128
        (steaneEncode ((α : ℝ) : ℂ) ((-α : ℝ) : ℂ))).re
          = (α * (1 / Real.sqrt 8)) ^ 2 := by
      rw [steaneEncode_quadForm_one]
      rw [show (((-α : ℝ) : ℂ) * ((1 / Real.sqrt 8 : ℝ) : ℂ))
          = (((-α * (1 / Real.sqrt 8) : ℝ)) : ℂ) from by push_cast; ring]
      rw [conj_mul_ofReal, Complex.ofReal_re]
      ring
    unfold steaneDecode
    rw [hz, ho]
    rw [decodePair_of_sq (α * (1 / Real.sqrt 8)) (α * (1 / Real.sqrt 8))
      (by positivity) (by positivity) (by positivity)]
    rw [fidelity_real_pair]
    rw [show α * (α * (1 / Real.sqrt 8)
          / Real.sqrt ((α * (1 / Real.sqrt 8)) ^ 2 + (α * (1 / Real.sqrt 8)) ^ 2))
        + -α * (α * (1 / Real.sqrt 8)
          / Real.sqrt ((α * (1 / Real.sqrt 8)) ^ 2 + (α * (1 / Real.sqrt 8)) ^ 2))
        = 0 from by ring]
    exact zero_pow (by norm_num)

/-! ## C2: correcting a deterministic bit flip on qubit 0 -/

theorem xor_eq_iff (i m c : ℕ) : i ^^^ m = c ↔ i = c ^^^ m := by
  constructor
  · rintro rfl
    rw [Nat.xor_assoc, Nat.xor_self, Nat.xor_zero]
  · rintro rfl
    rw [Nat.xor_assoc, Nat.xor_self, Nat.xor_zero]

/-- The support of the Steane `|0⟩_L` encoding after a bit flip on qubit 0
(each codeword XORed with `1 << 6 = 64`). -/
def steaneFlippedSupport : List ℕ := [64, 21, 115, 38, 79, 26, 124, 41]

theorem steaneEncode_one_zero :
    steaneEncode 1 0 = indState steaneZeroCodewords (1 / Real.sqrt 8) := by
  funext i
  unfold steaneEncode indState
  by_cases h : i ∈ steaneZeroCodewords <;> simp [h]

theorem flipped_mem (i : ℕ) :
    (i ^^^ 64 ∈ steaneZeroCodewords) ↔ i ∈ steaneFlippedSupport := by
  unfold steaneZeroCodewords steaneFlippedSupport
  simp [xor_eq_iff]

theorem flipped_state_eq :
    applyBitFlip (steaneEncode 1 0) 7 0
      = indState steaneFlippedSupport (1 / Real.sqrt 8) := by
  funext i
  unfold applyBitFlip
  rw [steaneEncode_one_zero]
  unfold indState
  have h64 : (1 <<< (7 - 1 - 0) : ℕ) = 64 := rfl
  rw [h64]
  by_cases h : i ∈ steaneFlippedSupport
  · rw [if_pos ((flipped_mem i).mpr h), if_pos h]
  · rw [if_neg (fun hc => h ((flipped_mem i).mp hc)), if_neg h]

theorem measureX_indState_nonneg (A : List ℕ) (r : ℝ) (bits : List ℕ) :
    ¬ measurePauliOperator (indState A r) bits pauliX2 < 0 := by
  rw [measureX_indState]
  push_neg
  positivity

theorem rsq_pos : (0 : ℝ) < (1 / Real.sqrt 8) ^ 2 := by positivity

theorem steaneMeasureSyndrome_encoded :
    steaneMeasureSyndrome (indState steaneZeroCodewords (1 / Real.sqrt 8))
      = [0, 0, 0, 0, 0, 0] := by
  have hZ1 : ¬ measurePauliOperator (indState steaneZeroCodewords (1 / Real.sqrt 8))
      [1, 1, 1, 1, 0, 0, 0] pauliZ2 < 0 := by
    rw [measureZ_indState]
    rw [show ((Finset.range (2 ^ ([1, 1, 1, 1, 0, 0, 0] : List ℕ).length)).filter
        (fun i => i ∈ steaneZeroCodewords ∧ zCount [1, 1, 1, 1, 0, 0, 0] i % 2 = 0)).card
        = 4 from by decide]
    rw [show ((Finset.range (2 ^ ([1, 1, 1, 1, 0, 0, 0] : List ℕ).length)).filter
        (fun i => i ∈ steaneZeroCodewords ∧ zCount [1, 1, 1, 1, 0, 0, 0] i % 2 = 1)).card
        = 4 from by decide]
    norm_num
  have hZ2 : ¬ measurePauliOperator (indState steaneZeroCodewords (1 / Real.sqrt 8))
      [1, 1, 0, 0, 1, 1, 0] pauliZ2 < 0 := by
    rw [measureZ_indState]
    rw [show ((Finset.range (2 ^ ([1, 1, 0, 0, 1, 1, 0] : List ℕ).length)).filter
        (fun i => i ∈ steaneZeroCodewords ∧ zCount [1, 1, 0, 0, 1, 1, 0] i % 2 = 0)).card
        = 8 from by decide]
    rw [show ((Finset.range (2 ^ ([1, 1, 0, 0, 1, 1, 0] : List ℕ).length)).filter
        (fun i => i ∈ steaneZeroCodewords ∧ zCount [1, 1, 0, 0, 1, 1, 0] i % 2 = 1)).card
        = 0 from by decide]
    push_neg
    positivity
  have hZ3 : ¬ measurePauliOperator (indState steaneZeroCodewords (1 / Real.sqrt 8))
      [1, 0, 1, 0, 1, 0, 1] pauliZ2 < 0 := by
    rw [measureZ_indState]
    rw [show ((Finset.range (2 ^ ([1, 0, 1, 0, 1, 0, 1] : List ℕ).length)).filter
        (fun i => i ∈ steaneZeroCodewords ∧ zCount [1, 0, 1, 0, 1, 0, 1] i % 2 = 0)).card
        = 8 from by decide]
    rw [show ((Finset.range (2 ^ ([1, 0, 1, 0, 1, 0, 1] : List ℕ).length)).filter
        (fun i => i ∈ steaneZeroCodewords ∧ zCount [1, 0, 1, 0, 1, 0, 1] i % 2 = 1)).card
        = 0 from by decide]
    push_neg
    positivity
  unfold steaneMeasureSyndrome xStabilizers zStabilizers
  simp only [List.map_cons, List.map_nil, List.cons_append, List.nil_append]
  rw [if_neg (measureX_indState_nonneg _ _ _), if_neg (measureX_indState_nonneg _ _ _),
    if_neg (measureX_indState_nonneg _ _ _), if_neg hZ1, if_neg hZ2, if_neg hZ3]

theorem steaneMeasureSyndrome_flipped :
    steaneMeasureSyndrome (indState steaneFlippedSupport (1 / Real.sqrt 8))
      = [0, 0, 0, 0, 1, 1] := by
  have hZ1 : ¬ measurePauliOperator (indState steaneFlippedSupport (1 / Real.sqrt 8))
      [1, 1, 1, 1, 0, 0, 0] pauliZ2 < 0 := by
    rw [measureZ_indState]
    rw [show ((Finset.range (2 ^ ([1, 1, 1, 1, 0, 0, 0] : List ℕ).length)).filter
        (fun i => i ∈ steaneFlippedSupport ∧ zCount [1, 1, 1, 1, 0, 0, 0] i % 2 = 0)).card
        = 4 from by decide]
    rw [show ((Finset.range (2 ^ ([1, 1, 1, 1, 0, 0, 0] : List ℕ).length)).filter
        (fun i => i ∈ steaneFlippedSupport ∧ zCount [1, 1, 1, 1, 0, 0, 0] i % 2 = 1)).card
        = 4 from by decide]
    norm_num
  have hZ2 : measurePauliOperator (indState steaneFlippedSupport (1 / Real.sqrt 8))
      [1, 1, 0, 0, 1, 1, 0] pauliZ2 < 0 := by
    rw [measureZ_indState]
    rw [show ((Finset.range (2 ^ ([1, 1, 0, 0, 1, 1, 0] : List ℕ).length)).filter
        (fun i => i ∈ steaneFlippedSupport ∧ zCount [1, 1, 0, 0, 1, 1, 0] i % 2 = 0)).card
        = 0 from by decide]
    rw [show ((Finset.range (2 ^ ([1, 1, 0, 0, 1, 1, 0] : List ℕ).length)).filter
        (fun i => i ∈ steaneFlippedSupport ∧ zCount [1, 1, 0, 0, 1, 1, 0] i % 2 = 1)).card
        = 8 from by decide]
    nlinarith [rsq_pos]
  have hZ3 : measurePauliOperator (indState steaneFlippedSupport (1 / Real.sqrt 8))
      [1, 0, 1, 0, 1, 0, 1] pauliZ2 < 0 := by
    rw [measureZ_indState]
    rw [show ((Finset.range (2 ^ ([1, 0, 1, 0, 1, 0, 1] : List ℕ).length)).filter
        (fun i => i ∈ steaneFlippedSupport ∧ zCount [1, 0, 1, 0, 1, 0, 1] i % 2 = 0)).card
        = 0 from by decide]
    rw [show ((Finset.range (2 ^ ([1, 0, 1, 0, 1, 0, 1] : List ℕ).length)).filter
        (fun i => i ∈ steaneFlippedSupport ∧ zCount [1, 0, 1, 0, 1, 0, 1] i % 2 = 1)).card
        = 8 from by decide]
    nlinarith [rsq_pos]
  unfold steaneMeasureSyndrome xStabilizers zStabilizers
  simp only [List.map_cons, List.map_nil, List.cons_append, List.nil_append]
  rw [if_neg (measureX_indState_nonneg _ _ _), if_neg (measureX_indState_nonneg _ _ _),
    if_neg (measureX_indState_nonneg _ _ _), if_neg hZ1, if_pos hZ2, if_pos hZ3]

theorem steaneCorrectErrors_zero_syndrome (s : ℕ → ℂ) :
    steaneCorrectErrors s [0, 0, 0, 0, 0, 0] = s := by
  unfold steaneCorrectErrors
  have h1 : syndromeTable (([0, 0, 0, 0, 0, 0] : List ℕ).take 3)
      = some (ErrTag.I (-1)) := by decide
  have h2 : syndromeTable (([0, 0, 0, 0, 0, 0] : List ℕ).drop 3)
      = some (ErrTag.I (-1)) := by decide
  rw [h1, h2]

theorem steaneCorrectErrors_syn_011 (s : ℕ → ℂ) :
    steaneCorrectErrors s [0, 0, 0, 0, 1, 1] = applyPhaseFlip s 7 4 := by
  unfold steaneCorrectErrors
  have h1 : syndromeTable (([0, 0, 0, 0, 1, 1] : List ℕ).take 3)
      = some (ErrTag.I (-1)) := by decide
  have h2 : syndromeTable (([0, 0, 0, 0, 1, 1] : List ℕ).drop 3)
      = some (ErrTag.Z 4) := by decide
  rw [h1, h2]
  norm_num
  rfl

theorem corrected_vanishes_CW0 :
    ∀ c ∈ steaneZeroCodewords,
      applyPhaseFlip (indState steaneFlippedSupport (1 / Real.sqrt 8)) 7 4 c = 0 := by
  intro c hc
  fin_cases hc <;> simp [applyPhaseFlip, indState, steaneFlippedSupport]

theorem corrected_vanishes_CW1 :
    ∀ c ∈ steaneOneCodewords,
      applyPhaseFlip (indState steaneFlippedSupport (1 / Real.sqrt 8)) 7 4 c = 0 := by
  intro c hc
  fin_cases hc <;> simp [applyPhaseFlip, indState, steaneFlippedSupport]

theorem decodePair_zero_zero : decodePair 0 0 = (1, 0) := by
  unfold decodePair
  rw [if_neg (by norm_num), if_neg (by norm_num [Real.sqrt_zero])]

/-- C2: flipping qubit 0 of the Steane-7 encoding of `[1, 0]`, then measuring
the syndrome and applying `correct_errors` with it, produces a state whose
decode has fidelity 1 with the original logical state.  (The applied
correction is a phase flip on qubit 4 — not the inverse of the injected
error — but the corrupted state has no overlap with either codeword subspace,
so decode falls back to the defined default `[1, 0]`, which matches the
input.) -/
theorem steane_bitflip_corrected_fidelity :
    fidelity 1 0
      (steaneDecode
        (steaneCorrectErrors (applyBitFlip (steaneEncode 1 0) 7 0)
          (steaneMeasureSyndrome (applyBitFlip (steaneEncode 1 0) 7 0)))) = 1 := by
  rw [flipped_state_eq, steaneMeasureSyndrome_flipped, steaneCorrectErrors_syn_011]
  unfold steaneDecode
  rw [quadForm_steaneProjector_zero steaneZeroCodewords _ corrected_vanishes_CW0,
    quadForm_steaneProjector_zero steaneOneCodewords _ corrected_vanishes_CW1]
  rw [Complex.zero_re, decodePair_zero_zero]
  unfold fidelity
  simp

/-! ## C5: five error-free cycles keep fidelity exactly 1 -/

/-- The source's `ErrorType` enum. -/
inductive ErrorType where
  | BIT_FLIP
  | PHASE_FLIP
  | BOTH
  | MEASUREMENT
  | DECOHERENCE
deriving DecidableEq

/-- `FaultTolerantQuantumService.simulate_errors`, with the `np.random` draws
passed as explicit streams: `r q ∈ [0, 1)` is the uniform draw for qubit `q`
(`np.random.random()`), and `kind q` the error type `np.random.choice` would
select if the error fires.  An error fires iff `r q < error_rate`. -/
noncomputable def simulateErrors (r : ℕ → ℝ) (kind : ℕ → ErrorType) (rate : ℝ)
    (numQubits : ℕ) (s : ℕ → ℂ) : ℕ → ℂ :=
  (List.range numQubits).foldl
    (fun st q =>
      if r q < rate then
        match kind q with
        | ErrorType.BIT_FLIP => applyBitFlip st numQubits q
        | ErrorType.PHASE_FLIP => applyPhaseFlip st numQubits q
        | ErrorType.BOTH => applyPhaseFlip (applyBitFlip st numQubits q) numQubits q
        | _ => st
      else st)
    s

theorem simulateErrors_rate_zero (r : ℕ → ℝ) (kind : ℕ → ErrorType)
    (numQubits : ℕ) (s : ℕ → ℂ) (h : ∀ q, 0 ≤ r q) :
    simulateErrors r kind 0 numQubits s = s := by
  unfold simulateErrors
  generalize List.range numQubits = l
  induction l generalizing s with
  | nil => rfl
  | cons q t ih =>
    rw [List.foldl_cons, if_neg (not_lt.mpr (h q))]
    exact ih s

/-- One cycle of `full_error_correction_cycle` with the Steane-7 code:
inject noise, measure the syndrome of the noisy state, correct. -/
noncomputable def steaneCycleStep (r : ℕ → ℝ) (kind : ℕ → ErrorType) (rate : ℝ)
    (s : ℕ → ℂ) : ℕ → ℂ :=
  steaneCorrectErrors (simulateErrors r kind rate 7 s)
    (steaneMeasureSyndrome (simulateErrors r kind rate 7 s))

/-- The carried physical state after `numCycles` cycles of
`full_error_correction_cycle` (Steane-7), starting from the encoding of
`[α, β]`; `r c` / `kind c` are the random streams of cycle `c`. -/
noncomputable def steaneFinalState (r : ℕ → ℕ → ℝ) (kind : ℕ → ℕ → ErrorType)
    (rate : ℝ) (numCycles : ℕ) (α β : ℂ) : ℕ → ℂ :=
  (List.range numCycles).foldl (fun st c => steaneCycleStep (r c) (kind c) rate st)
    (steaneEncode α β)

/-- `results['final_fidelity']` of `full_error_correction_cycle` (Steane-7). -/
noncomputable def steaneFinalFidelity (r : ℕ → ℕ → ℝ) (kind : ℕ → ℕ → ErrorType)
    (rate : ℝ) (numCycles : ℕ) (α β : ℂ) : ℝ :=
  fidelity α β (steaneDecode (steaneFinalState r kind rate numCycles α β))

/-- C5: running the full fault-tolerant cycle on the logical state `[1, 0]`
with the Steane-7 code, error rate 0 and 5 cycles gives final fidelity exactly
1: no error ever fires, every cycle's syndrome is all-zero so `correct_errors`
leaves the carried state untouched, and the final decode reproduces `[1, 0]`. -/
theorem steane_zero_error_five_cycles (r : ℕ → ℕ → ℝ) (kind : ℕ → ℕ → ErrorType)
    (h : ∀ c q, 0 ≤ r c q) :
    steaneFinalFidelity r kind 0 5 1 0 = 1 := by
  have hstep : ∀ c, steaneCycleStep (r c) (kind c) 0 (steaneEncode 1 0)
      = steaneEncode 1 0 := by
    intro c
    unfold steaneCycleStep
    rw [simulateErrors_rate_zero _ _ _ _ (h c)]
    rw [steaneEncode_one_zero, steaneMeasureSyndrome_encoded]
    rw [← steaneEncode_one_zero]
    exact steaneCorrectErrors_zero_syndrome _
  have hstate : steaneFinalState r kind 0 5 1 0 = steaneEncode 1 0 := by
    unfold steaneFinalState
    rw [show List.range 5 = [0, 1, 2, 3, 4] from rfl]
    simp only [List.foldl_cons, List.foldl_nil, hstep]
  unfold steaneFinalFidelity
  rw [hstate]
  have hdec : steaneDecode (steaneEncode 1 0) = (1, 0) := by
    have h10 : steaneEncode 1 0 = steaneEncode ((1 : ℝ) : ℂ) ((0 : ℝ) : ℂ) := by
      norm_num
    rw [h10, steaneDecode_encode_real 1 0 (by norm_num) (by norm_num) (by norm_num)]
    norm_num
  rw [hdec]
  unfold fidelity
  simp

/-- Witness for C5: the constant-zero random stream satisfies
`0 ≤ r c q` for all cycles and qubits. -/
theorem steane_zero_error_five_cycles_witness :
    (∀ c q : ℕ, (0 : ℝ) ≤ (fun _ _ => (0 : ℝ)) c q) ∧
      steaneFinalFidelity (fun _ _ => (0 : ℝ)) (fun _ _ => ErrorType.BIT_FLIP)
        0 5 1 0 = 1 :=
  ⟨fun _ _ => le_refl 0,
    steane_zero_error_five_cycles (fun _ _ => (0 : ℝ))
      (fun _ _ => ErrorType.BIT_FLIP) (fun _ _ => le_refl 0)⟩

end QuantumVerify
